/-
Verification of symbol-level diff analysis (diffguard).

Shallow embedding of the core engine modules:
  * engine/_types.py     (Symbol, compute_body_hash)
  * engine/signatures.py (parameter extraction, breaking-change analysis)
  * engine/matcher.py    (per-file and cross-file symbol matching)
  * engine/classifier.py (change classification)
  * engine/summarizer.py (detailed-tier rendering)
  * engine/pipeline.py   (per-file processing, move patching)
  * git.py               (hunk body scanning)

Python strings are modelled as Lean `String`/`List Char`; Python ints as
`Int`/`Nat`; `None` as `Option`.  Definitions follow the source line by
line; deviations forced by value semantics (e.g. `id()`-based sets) are
noted where they occur.
-/
import Mathlib

namespace DiffGuard

/-! ## Python string primitives -/

/-- Python `str` whitespace for `\s`, `str.strip()` and `str.split()`
(ASCII: space, tab, newline, carriage return, vertical tab, form feed). -/
def pyIsSpace (c : Char) : Bool :=
  c == ' ' || c == '\t' || c == '\n' || c == '\r' || c == Char.ofNat 11 || c == Char.ofNat 12

/-- `str.strip()` on a character list. -/
def pyStripL (l : List Char) : List Char :=
  ((l.dropWhile pyIsSpace).reverse.dropWhile pyIsSpace).reverse

/-- `str.strip()`. -/
def py_strip (s : String) : String := String.mk (pyStripL s.toList)

/-- An opening brace character (written numerically). -/
def lbrace : Char := Char.ofNat 123

/-- A closing brace character (written numerically). -/
def rbrace : Char := Char.ofNat 125

/-- `c in s` for a single character. -/
def str_contains (s : String) (c : Char) : Bool := s.toList.contains c

/-! ## engine/_types.py -/

/-- `Symbol` from engine/_types.py: a parsed symbol from source code. -/
structure Symbol where
  name : String
  kind : String
  signature : String
  start_line : Nat
  end_line : Nat
  body_hash : String
  parent : Option String := none
deriving DecidableEq, Repr

/-- `ParseResult` from engine/_types.py. -/
structure ParseResult where
  symbols : List Symbol := []
  language : String := ""
  parse_error : Bool := false
  error_message : Option String := none
deriving Repr

/-- One step of `re.sub(r"\s+", " ", ·)`: replace every maximal whitespace
run by a single space.  The flag records whether we are inside a run whose
replacement space was already emitted. -/
def collapse_go : List Char → Bool → List Char
  | [], _ => []
  | c :: rest, inRun =>
    if pyIsSpace c then
      if inRun then collapse_go rest true else ' ' :: collapse_go rest true
    else c :: collapse_go rest false

/-- `re.sub(r"\s+", " ", ·)` on a character list. -/
def collapse_ws (l : List Char) : List Char := collapse_go l false

/-- The normalisation step of `compute_body_hash`:
`re.sub(r"\s+", " ", body.strip())`. -/
def normalize_ws (body : String) : String :=
  String.mk (collapse_ws (pyStripL body.toList))

/-- `compute_body_hash` from engine/_types.py: the md5 hex digest of the
whitespace-normalised body.  `hashlib.md5(...).hexdigest()` is a Python
standard-library primitive external to this repository, so it is passed in
as the parameter `digest`; every theorem below holds for any digest
function, in particular for real md5. -/
def compute_body_hash (digest : String → String) (body : String) : String :=
  digest (normalize_ws body)

/-- Helper for `ws_tokens`: splits on whitespace runs, accumulating the
current (reversed) token. -/
def ws_tokens_go : List Char → List Char → List (List Char)
  | [], acc => if acc.isEmpty then [] else [acc.reverse]
  | c :: rest, acc =>
    if pyIsSpace c then
      if acc.isEmpty then ws_tokens_go rest [] else acc.reverse :: ws_tokens_go rest []
    else ws_tokens_go rest (c :: acc)

/-- The maximal whitespace-free chunks of a string (Python `str.split()`
with no argument).  Two bodies "differ only in whitespace runs" exactly
when they have the same chunk sequence. -/
def ws_tokens (l : List Char) : List (List Char) := ws_tokens_go l []

/-! ## engine/signatures.py -/

/-- Scanner for `_extract_balanced_params`: already past the first `(`,
with `depth` counting open `(`/`[` brackets (starting at 1), returns the
characters strictly between the first `(` and the bracket closing it. -/
def balanced_scan : List Char → Int → List Char → Option (List Char)
  | [], _, _ => none
  | c :: rest, depth, acc =>
    if c == '(' || c == '[' then balanced_scan rest (depth + 1) (acc ++ [c])
    else if c == ')' || c == ']' then
      if depth == 1 then some acc else balanced_scan rest (depth - 1) (acc ++ [c])
    else balanced_scan rest depth (acc ++ [c])

/-- `_extract_balanced_params` from engine/signatures.py. -/
def extract_balanced_params (signature : String) : Option String :=
  match signature.toList.dropWhile (fun c => c != '(') with
  | [] => none
  | _ :: rest => (balanced_scan rest 1 []).map String.mk

/-- The comma-splitting loop of `extract_params`: split on commas at
bracket depth 0 (tracking `(`/`[`/brace up and `)`/`]`/brace down),
stripping each piece; the final piece is kept only when non-empty. -/
def split_params_scan : List Char → Int → List Char → List String → List String
  | [], _, current, acc =>
    let last := py_strip (String.mk current)
    if last != "" then acc ++ [last] else acc
  | ch :: rest, depth, current, acc =>
    let d2 := if ch == '(' || ch == '[' || ch == lbrace then depth + 1
              else if ch == ')' || ch == ']' || ch == rbrace then depth - 1
              else depth
    if ch == ',' && d2 == 0 then split_params_scan rest d2 [] (acc ++ [py_strip (String.mk current)])
    else split_params_scan rest d2 (current ++ [ch]) acc

/-- `extract_params` from engine/signatures.py. -/
def extract_params (signature : String) : List String :=
  match extract_balanced_params signature with
  | none => []
  | some params_str =>
    if py_strip params_str == "" then []
    else (split_params_scan params_str.toList 0 [] []).filter
      (fun p => p != "" && p != "self" && p != "cls")

/-- `re` fragment `\s*(.+)$` applied to the text after `->`:
greedy `\s*`, `.` excluding newline, `$` at end of string or just before a
final newline.  Returns the captured group. -/
def match_tail_group (u : List Char) : Option (List Char) :=
  let core := if u.getLast? == some '\n' then u.dropLast else u
  let rest := core.dropWhile pyIsSpace
  if rest != [] then (if rest.contains '\n' then none else some rest)
  else
    match core.getLast? with
    | some c => if c == '\n' then none else some [c]
    | none => none

/-- `re` fragment `\s*->\s*(.+)$` applied to the text after a `)`. -/
def arrow_suffix_group (t : List Char) : Option (List Char) :=
  match t.dropWhile pyIsSpace with
  | '-' :: '>' :: u => match_tail_group u
  | _ => none

/-- Leftmost-match search for `\)\s*->\s*(.+)$` (a match must start at a
`)`, so searching each `)` position left to right). -/
def ret_search : List Char → Option (List Char)
  | [] => none
  | c :: rest =>
    if c == ')' then
      match arrow_suffix_group rest with
      | some g => some g
      | none => ret_search rest
    else ret_search rest

/-- `_extract_return_type` from engine/signatures.py:
`re.search(r"\)\s*->\s*(.+)$", signature)`, group 1 stripped. -/
def extract_return_type (signature : String) : Option String :=
  (ret_search signature.toList).map (fun g => py_strip (String.mk g))

/-- `_param_has_default`: `"=" in param`. -/
def param_has_default (param : String) : Bool := str_contains param '='

/-- `_strip_default`: `param.split("=")[0].strip()`. -/
def strip_default (param : String) : String :=
  py_strip (String.mk (param.toList.takeWhile (fun c => c != '=')))

/-- `_param_default_value`: `None` when there is no `=`, else
`param.split("=", 1)[1].strip()`. -/
def param_default_value (param : String) : Option String :=
  if str_contains param '=' then
    some (py_strip (String.mk ((param.toList.dropWhile (fun c => c != '=')).drop 1)))
  else none

/-- The loop of `_split_positional_and_kwonly` with its `seen_star` flag. -/
def split_pos_kw_go : List String → Bool → List String × List String
  | [], _ => ([], [])
  | p :: rest, seen_star =>
    if p == "*" then split_pos_kw_go rest true
    else
      let pk := split_pos_kw_go rest seen_star
      if seen_star then (pk.1, p :: pk.2) else (p :: pk.1, pk.2)

/-- `_split_positional_and_kwonly` from engine/signatures.py. -/
def split_pos_kw (params : List String) : List String × List String :=
  split_pos_kw_go params false

/-- The keyword-only parameter name used as a map/set key throughout
engine/signatures.py: `_strip_default(k).split(":")[0].strip()`. -/
def kw_name (k : String) : String :=
  py_strip (String.mk ((strip_default k).toList.takeWhile (fun c => c != ':')))

/-- Lookup in `old_kw_map = {kw_name(k): k for k in old_kw}`.  A Python
dict comprehension keeps the last binding for a repeated key, hence the
search over the reversed list. -/
def kw_map_find (kws : List String) (nm : String) : Option String :=
  kws.reverse.find? (fun k => kw_name k == nm)

/-- The loop of `is_default_value_change` (early `return False` on a
name/type difference, early `return True` on a genuine default change). -/
def default_change_go : List (String × String) → Bool
  | [] => false
  | (o, n) :: rest =>
    if strip_default o != strip_default n then false
    else if param_default_value o != param_default_value n
        && (param_default_value o).isSome && (param_default_value n).isSome then true
    else default_change_go rest

/-- `is_default_value_change` from engine/signatures.py. -/
def is_default_value_change (old_signature new_signature : String) : Bool :=
  let old_params := extract_params old_signature
  let new_params := extract_params new_signature
  if old_params.length != new_params.length then false
  else default_change_go (old_params.zip new_params)

/-- `is_breaking_change` from engine/signatures.py. -/
def is_breaking_change (old_signature new_signature : String) : Bool :=
  if old_signature == new_signature then false
  else
    let old_params := extract_params old_signature
    let new_params := extract_params new_signature
    let old_pos := (split_pos_kw old_params).1
    let old_kw := (split_pos_kw old_params).2
    let new_pos := (split_pos_kw new_params).1
    let new_kw := (split_pos_kw new_params).2
    if new_pos.length < old_pos.length then true
    else if (old_pos.zip new_pos).any (fun pq =>
        strip_default pq.1 != strip_default pq.2
        || (param_default_value pq.1 != param_default_value pq.2
            && (param_default_value pq.1).isSome && (param_default_value pq.2).isSome)) then true
    else if decide (old_pos.length < new_pos.length)
        && (new_pos.drop old_pos.length).any (fun p => !(param_has_default p)) then true
    else if new_kw.any (fun k =>
        match kw_map_find old_kw (kw_name k) with
        | some old_k =>
          strip_default old_k != strip_default k
          || (param_default_value old_k != param_default_value k
              && (param_default_value old_k).isSome && (param_default_value k).isSome)
        | none => false) then true
    else if (old_kw.map kw_name).any (fun nm => !((new_kw.map kw_name).contains nm)) then true
    else if new_kw.any (fun k =>
        (kw_map_find old_kw (kw_name k)).isNone && !(param_has_default k)) then true
    else
      extract_return_type old_signature != extract_return_type new_signature
      && (extract_return_type old_signature).isSome
      && (extract_return_type new_signature).isSome

/-- `classify_signature_change` from engine/signatures.py. -/
def classify_signature_change (old_signature new_signature : String) : String :=
  if old_signature == new_signature then "SIGNATURE CHANGED"
  else
    let old_params := extract_params old_signature
    let new_params := extract_params new_signature
    let old_pos := (split_pos_kw old_params).1
    let old_kw := (split_pos_kw old_params).2
    let new_pos := (split_pos_kw new_params).1
    let new_kw := (split_pos_kw new_params).2
    if new_pos.length < old_pos.length then "PARAMETER REMOVED"
    else if (old_kw.map kw_name).any (fun nm => !((new_kw.map kw_name).contains nm)) then
      "PARAMETER REMOVED"
    else if decide (old_pos.length < new_pos.length)
        && (new_pos.drop old_pos.length).any (fun p => !(param_has_default p)) then
      "PARAMETER ADDED (BREAKING)"
    else if new_kw.any (fun k =>
        (kw_map_find old_kw (kw_name k)).isNone && !(param_has_default k)) then
      "PARAMETER ADDED (BREAKING)"
    else if is_default_value_change old_signature new_signature then "DEFAULT VALUE CHANGED"
    else if extract_return_type old_signature != extract_return_type new_signature
        && (extract_return_type old_signature).isSome
        && (extract_return_type new_signature).isSome then "RETURN TYPE CHANGED"
    else if is_breaking_change old_signature new_signature then "BREAKING SIGNATURE CHANGE"
    else "SIGNATURE CHANGED"

/-! ## engine/matcher.py -/

/-- `SymbolKey = tuple[str, str, str | None]`. -/
abbrev SymbolKey := String × String × Option String

/-- `_key` from engine/matcher.py. -/
def symbol_key (s : Symbol) : SymbolKey := (s.name, s.kind, s.parent)

/-- `MatchedSymbol` from engine/matcher.py. -/
structure MatchedSymbol where
  old : Option Symbol
  new : Option Symbol
  file_from : Option String := none
  file_to : Option String := none
deriving DecidableEq, Repr

/-- `_build_index(symbols).get(key, [])`: the dict built with
`setdefault(..., []).append(s)` holds, per key, exactly the symbols with
that key in their original order, i.e. an order-preserving filter. -/
def index_get (symbols : List Symbol) (k : SymbolKey) : List Symbol :=
  symbols.filter (fun s => symbol_key s == k)

/-- First-occurrence deduplication, as performed by `dict.fromkeys` (and
by dict key iteration for `_build_index`). -/
def dedup_keys (ks : List SymbolKey) : List SymbolKey :=
  ks.foldl (fun acc k => if acc.contains k then acc else acc ++ [k]) []

/-- `all_keys = dict.fromkeys([*old_index, *new_index])` in
`match_symbols`: the per-side index key lists (first-occurrence order),
concatenated and deduplicated keeping first occurrences. -/
def all_match_keys (old_symbols new_symbols : List Symbol) : List SymbolKey :=
  dedup_keys (dedup_keys (old_symbols.map symbol_key) ++ dedup_keys (new_symbols.map symbol_key))

/-- Pass 1 of `_match_duplicates`: iterate over a snapshot of
`remaining_old`; for each element, greedily pair it with the first
signature-equal element of `remaining_new`, removing both (Python
`list.remove` deletes the first `==`-equal occurrence, which is what
`List.erase` does). -/
def pass1 : List Symbol → List Symbol → List Symbol →
    List MatchedSymbol × List Symbol × List Symbol
  | [], remOld, remNew => ([], remOld, remNew)
  | o :: snap, remOld, remNew =>
    match remNew.find? (fun n => o.signature == n.signature) with
    | some n =>
      let r := pass1 snap (remOld.erase o) (remNew.erase n)
      (⟨some o, some n, none, none⟩ :: r.1, r.2)
    | none => pass1 snap remOld remNew

/-- Pass 2 of `_match_duplicates` plus the leftover loops: positional
pairing while both lists are non-empty, then removed/added entries. -/
def pass2 : List Symbol → List Symbol → List MatchedSymbol
  | o :: os, n :: ns => ⟨some o, some n, none, none⟩ :: pass2 os ns
  | os, [] => os.map (fun o => ⟨some o, none, none, none⟩)
  | [], ns => ns.map (fun n => ⟨none, some n, none, none⟩)

/-- `_match_duplicates` from engine/matcher.py (returning the appended
records instead of mutating a results list). -/
def match_duplicates (olds news : List Symbol) : List MatchedSymbol :=
  let r := pass1 olds olds news
  r.1 ++ pass2 r.2.1 r.2.2

/-- The `if olds and news / elif olds / else` chain of the `match_symbols`
loop body (the branch for keys without duplicates): pair the single heads,
else emit removed entries for the old side, else added entries for the new
side. -/
def process_key_single (olds news : List Symbol) : List MatchedSymbol :=
  match olds, news with
  | o :: _, n :: _ => [⟨some o, some n, none, none⟩]
  | [], news2 => news2.map (fun q => ⟨none, some q, none, none⟩)
  | olds2, [] => olds2.map (fun q => ⟨some q, none, none, none⟩)

/-- The per-key body of the `match_symbols` loop. -/
def process_key (olds news : List Symbol) : List MatchedSymbol :=
  if decide (1 < olds.length) || decide (1 < news.length) then match_duplicates olds news
  else process_key_single olds news

/-- `match_symbols` from engine/matcher.py. -/
def match_symbols (old_symbols new_symbols : List Symbol) : List MatchedSymbol :=
  (all_match_keys old_symbols new_symbols).flatMap
    (fun k => process_key (index_get old_symbols k) (index_get new_symbols k))

/-- Flattening of `unmatched_new` into `new_by_key` candidates.  Python
tracks consumed new-side symbols by object identity (`id`); with value
semantics we tag each occurrence with its global position, the stable
synthetic key the spec prescribes for reimplementations. -/
def flatten_new (unmatched_new : List (String × List Symbol)) : List (String × Nat × Symbol) :=
  (unmatched_new.flatMap (fun fs => fs.2.map (fun s => (fs.1, s)))).enum.map
    (fun pi => (pi.2.1, pi.1, pi.2.2))

/-- The inner candidate scan of `match_cross_file`: first candidate with
the old symbol's key that is not yet consumed, passes the signature-or-
body-hash guard, and lives in a different file. -/
def cross_file_step (old_file : String) (old_sym : Symbol)
    (flat : List (String × Nat × Symbol)) (matched : List Nat) :
    Option (String × Nat × Symbol) :=
  (flat.filter (fun fns => symbol_key fns.2.2 == symbol_key old_sym)).find?
    (fun fns =>
      !(matched.contains fns.2.1)
      && !(old_sym.signature != fns.2.2.signature && old_sym.body_hash != fns.2.2.body_hash)
      && fns.1 != old_file)

/-- The outer loop of `match_cross_file` over all unmatched old symbols. -/
def cross_go : List (String × Symbol) → List (String × Nat × Symbol) → List Nat →
    List MatchedSymbol
  | [], _, _ => []
  | (of, os) :: rest, flat, matched =>
    match cross_file_step of os flat matched with
    | some fns => ⟨some os, some fns.2.2, some of, some fns.1⟩ :: cross_go rest flat (fns.2.1 :: matched)
    | none => cross_go rest flat matched

/-- `match_cross_file` from engine/matcher.py. -/
def match_cross_file (unmatched_old unmatched_new : List (String × List Symbol)) :
    List MatchedSymbol :=
  cross_go (unmatched_old.flatMap (fun fs => fs.2.map (fun s => (fs.1, s))))
    (flatten_new unmatched_new) []

/-! ## schema.py and engine/classifier.py -/

/-- The `SymbolChange.kind` literal type from schema.py. -/
inductive ChangeKind where
  | function_added | function_removed | function_modified
  | class_added | class_removed | class_modified
  | signature_changed | moved
deriving DecidableEq, Repr

/-- `SymbolChange` from schema.py (the `detail` field is never set by the
engine and is omitted). -/
structure SymbolChange where
  kind : ChangeKind
  name : String
  signature : Option String := none
  before_signature : Option String := none
  after_signature : Option String := none
  file_from : Option String := none
  line : Option Nat := none
  breaking : Bool := false
deriving DecidableEq, Repr

/-- `_kind_prefix(kind) + "_added"`. -/
def added_kind (kind : String) : ChangeKind :=
  if kind == "class" then .class_added else .function_added

/-- `_kind_prefix(kind) + "_removed"`. -/
def removed_kind (kind : String) : ChangeKind :=
  if kind == "class" then .class_removed else .function_removed

/-- `_kind_prefix(kind) + "_modified"`. -/
def modified_kind (kind : String) : ChangeKind :=
  if kind == "class" then .class_modified else .function_modified

/-- The added-symbol record built by `_classify_one`. -/
def added_change (n : Symbol) : SymbolChange :=
  { kind := added_kind n.kind, name := n.name, signature := some n.signature,
    line := some n.start_line }

/-- The removed-symbol record built by `_classify_one`. -/
def removed_change (o : Symbol) : SymbolChange :=
  { kind := removed_kind o.kind, name := o.name, signature := some o.signature,
    line := some o.start_line }

/-- The moved-symbol record built by `_classify_one`. -/
def moved_change (ff : String) (n : Symbol) : SymbolChange :=
  { kind := .moved, name := n.name, signature := some n.signature,
    file_from := some ff, line := some n.start_line }

/-- `_classify_one` from engine/classifier.py.  The `(None, None)` case
violates the `MatchedSymbol` invariant and raises an `AssertionError` in
Python; it is modelled as producing no change. -/
def classify_one (m : MatchedSymbol) : Option SymbolChange :=
  match m.file_from, m.old, m.new with
  | some ff, some _, some n => some (moved_change ff n)
  | _, none, some n => some (added_change n)
  | _, some o, none => some (removed_change o)
  | _, none, none => none
  | none, some o, some n =>
    if o.body_hash == n.body_hash then none
    else if o.signature != n.signature then
      some { kind := .signature_changed, name := n.name,
             before_signature := some o.signature, after_signature := some n.signature,
             line := some n.start_line,
             breaking := is_breaking_change o.signature n.signature }
    else
      some { kind := modified_kind n.kind, name := n.name, signature := some n.signature,
             line := some n.start_line }

/-- `classify_changes` from engine/classifier.py. -/
def classify_changes (ms : List MatchedSymbol) : List SymbolChange :=
  ms.filterMap classify_one

/-! ## git.py hunk body scanning -/

/-- `DiffLine` from git.py. -/
structure DiffLine where
  origin : String
  content : String
  old_lineno : Option Nat := none
  new_lineno : Option Nat := none
deriving DecidableEq, Repr

/-- String prefix test (`str.startswith`). -/
def starts_with (s pre : String) : Bool := pre.toList.isPrefixOf s.toList

/-- `s[1:]`. -/
def drop_first (s : String) : String := String.mk (s.toList.drop 1)

/-- The lookahead used by `parse_diff` for a blank line inside a hunk
body: `lines[i + 1].startswith(("diff --git ", "@@", "+", "-", " ", "\\ "))`. -/
def is_diff_continuation (next : String) : Bool :=
  starts_with next "diff --git " || starts_with next "@@" || starts_with next "+"
  || starts_with next "-" || starts_with next " " || starts_with next "\\ "

/-- Whether the blank-line lookahead succeeds, i.e. there is a next input
line and it is another diff line. -/
def blank_continues (rest : List String) : Bool :=
  match rest with
  | [] => false
  | next :: _ => is_diff_continuation next

/-- The hunk-body scanning loop of `parse_diff` (git.py lines 225-286):
consumes input lines until a `diff --git `/`@@` header or a hunk-ending
blank line, threading the old/new line counters and the accumulated
`DiffLine`s.  Returns the hunk's lines and the unconsumed input. -/
def parse_hunk_body : List String → Nat → Nat → List DiffLine → List DiffLine × List String
  | [], _, _, acc => (acc, [])
  | dl :: rest, old_ln, new_ln, acc =>
    if starts_with dl "diff --git " || starts_with dl "@@" then (acc, dl :: rest)
    else if starts_with dl "+" then
      parse_hunk_body rest old_ln (new_ln + 1)
        (acc ++ [⟨"+", drop_first dl, none, some new_ln⟩])
    else if starts_with dl "-" then
      parse_hunk_body rest (old_ln + 1) new_ln
        (acc ++ [⟨"-", drop_first dl, some old_ln, none⟩])
    else if starts_with dl " " then
      parse_hunk_body rest (old_ln + 1) (new_ln + 1)
        (acc ++ [⟨" ", drop_first dl, some old_ln, some new_ln⟩])
    else if starts_with dl "\\ No newline at end of file" then
      parse_hunk_body rest old_ln new_ln acc
    else if dl == "" then
      if blank_continues rest then
        parse_hunk_body rest (old_ln + 1) (new_ln + 1)
          (acc ++ [⟨" ", "", some old_ln, some new_ln⟩])
      else (acc, rest)
    else parse_hunk_body rest old_ln new_ln acc

/-! ## schema.py aggregate records -/

/-- `FileChange` from schema.py. -/
structure FileChange where
  path : String := ""
  language : Option String := none
  change_type : String := "modified"
  generated : Bool := false
  binary : Bool := false
  parse_error : Bool := false
  unsupported_language : Bool := false
  changes : List SymbolChange := []
deriving DecidableEq, Repr

/-- `Summary` from schema.py (`change_types` is a `Counter` dict, modelled
as an association list). -/
structure Summary where
  change_types : List (ChangeKind × Nat) := []
  breaking_changes : List SymbolChange := []
  focus : List String := []
deriving DecidableEq, Repr

/-! ## engine/summarizer.py -/

/-- `_DETAILED_CAP`. -/
def detailed_cap : Nat := 15

/-- `_change_priority` from engine/summarizer.py (`_P_BREAKING = 0` …
`_P_MOVED = 5`; `_KIND_PRIORITY` covers every kind, so the `.get` default
is never used). -/
def change_priority (c : SymbolChange) : Nat :=
  if c.breaking then 0
  else
    match c.kind with
    | .signature_changed => 2
    | .function_removed | .class_removed => 1
    | .function_added | .class_added => 3
    | .function_modified | .class_modified => 4
    | .moved => 5

/-- The sort key of `_all_changes_sorted`:
`(_change_priority(c), path, c.name)`. -/
def pair_sort_key (pc : String × SymbolChange) : Nat × String × String :=
  (change_priority pc.2, pc.1, pc.2.name)

/-- Strict lexicographic comparison of sort keys. -/
def triple_lt (a b : Nat × String × String) : Bool :=
  decide (a.1 < b.1)
  || (a.1 == b.1 && (decide (a.2.1 < b.2.1)
      || (a.2.1 == b.2.1 && decide (a.2.2 < b.2.2))))

/-- Stable insertion: `x` is placed after every element whose key is not
strictly greater, so equal-key elements keep their arrival order. -/
def insert_sorted (x : String × SymbolChange) : List (String × SymbolChange) →
    List (String × SymbolChange)
  | [] => [x]
  | y :: ys => if triple_lt (pair_sort_key x) (pair_sort_key y) then x :: y :: ys
               else y :: insert_sorted x ys

/-- Stable sort by `pair_sort_key`.  Python `list.sort(key=...)` is a
stable sort; any stable sorting algorithm over the same total preorder
produces the identical output list, so insertion sort is an exact model. -/
def sort_pairs (l : List (String × SymbolChange)) : List (String × SymbolChange) :=
  l.foldl (fun acc x => insert_sorted x acc) []

/-- `_all_changes_sorted` from engine/summarizer.py. -/
def all_changes_sorted (files : List FileChange) : List (String × SymbolChange) :=
  sort_pairs (files.flatMap (fun fc => fc.changes.map (fun c => (fc.path, c))))

/-- `None` rendered inside a Python f-string. -/
def opt_str (o : Option String) : String :=
  match o with
  | some s => s
  | none => "None"

/-- The grouped-section index of a change kind: 0 Removed, 1 Signature
Changes, 2 Added, 3 Modified, 4 Moved (the dispatch chain of
`_emit_change_sections`). -/
def section_index : ChangeKind → Nat
  | .function_removed | .class_removed => 0
  | .signature_changed => 1
  | .function_added | .class_added => 2
  | .function_modified | .class_modified => 3
  | .moved => 4

/-- The per-item line format of `_emit_change_sections`. -/
def section_line (path : String) (c : SymbolChange) : String :=
  match c.kind with
  | .signature_changed =>
    "- `" ++ c.name ++ "`: " ++ opt_str c.before_signature ++ " → " ++ opt_str c.after_signature
  | .moved => "- `" ++ c.name ++ "` from " ++ opt_str c.file_from
  | _ => "- `" ++ c.name ++ "` (" ++ path ++ ")"

/-- The items collected into section `i` by the single pass of
`_emit_change_sections` (breaking changes are always skipped there; the
loop appends to five independent lists, i.e. five order-preserving
filters). -/
def section_items (sorted_changes : List (String × SymbolChange)) (i : Nat) : List String :=
  sorted_changes.filterMap (fun pc =>
    if !pc.2.breaking && section_index pc.2.kind == i then some (section_line pc.1 pc.2)
    else none)

/-- The heading/items pairs of `_emit_change_sections`, in dict insertion
order. -/
def section_pairs (sorted_changes : List (String × SymbolChange)) : List (String × List String) :=
  [("Removed", section_items sorted_changes 0),
   ("Signature Changes", section_items sorted_changes 1),
   ("Added", section_items sorted_changes 2),
   ("Modified", section_items sorted_changes 3),
   ("Moved", section_items sorted_changes 4)]

/-- The emission loop of `_emit_change_sections`: per non-empty section,
emit heading, up to `cap - emitted` items and a blank separator; `break`
once the cap is exhausted.  Returns the emitted lines and the final
`emitted` counter. -/
def emit_loop : List (String × List String) → Option Nat → Nat → List String × Nat
  | [], _, emitted => ([], emitted)
  | (h, items) :: rest, cap, emitted =>
    if items.isEmpty then emit_loop rest cap emitted
    else
      match cap with
      | some c =>
        if c ≤ emitted then ([], emitted)
        else
          let to_show := items.take (c - emitted)
          let r := emit_loop rest cap (emitted + to_show.length)
          (("## " ++ h) :: to_show ++ [""] ++ r.1, r.2)
      | none =>
        let r := emit_loop rest cap (emitted + items.length)
        (("## " ++ h) :: items ++ [""] ++ r.1, r.2)

/-- `_emit_change_sections` from engine/summarizer.py (the
`include_breaking` flag is dead in the source: breaking changes are
skipped unconditionally). -/
def emit_change_sections (sorted_changes : List (String × SymbolChange)) (cap : Option Nat) :
    List String × Nat :=
  emit_loop (section_pairs sorted_changes) cap 0

/-- The breaking-changes line format in `_build_detailed`. -/
def fmt_breaking (c : SymbolChange) : String :=
  "- `" ++ c.name ++ "`: " ++ opt_str c.before_signature ++ " → " ++ opt_str c.after_signature

/-- The `## Breaking Changes` block of `_build_detailed` (always shown in
full, before any capped section). -/
def breaking_section (summary : Summary) : List String :=
  if summary.breaking_changes.isEmpty then []
  else "## Breaking Changes" :: summary.breaking_changes.map fmt_breaking ++ [""]

/-- The opt-in `## Skipped` block of `_build_detailed`. -/
def skipped_section (all_files : List FileChange) (show_skipped : Bool) : List String :=
  if show_skipped then
    let skipped := all_files.filter (fun f => f.generated || f.binary || f.unsupported_language)
    if skipped.isEmpty then []
    else
      "## Skipped" :: skipped.map (fun f =>
        let reason := if f.generated then "generated" else if f.binary then "binary" else "unsupported"
        "- " ++ f.path ++ " (" ++ reason ++ ")") ++ [""]
  else []

/-- The `## Test Changes` block of `_build_detailed` together with the
leftover count it adds to `remaining_prod`: test items get their own cap
(`_DETAILED_CAP - emitted`, or 5 once the production cap was reached). -/
def test_section (test_changes : List (String × SymbolChange)) (emitted : Nat) :
    List String × Int :=
  if test_changes.isEmpty then ([], 0)
  else
    let test_cap := if emitted < detailed_cap then detailed_cap - emitted else 5
    let r := emit_change_sections test_changes (some test_cap)
    ("## Test Changes" :: r.1, (test_changes.length : Int) - (r.2 : Int))

/-- `_build_detailed` from engine/summarizer.py, producing the line list
(the final string is these lines joined with newlines and stripped). -/
def build_detailed_lines (prod_files test_files all_files : List FileChange)
    (summary : Summary) (show_skipped : Bool) : List String :=
  let prod_changes := all_changes_sorted prod_files
  let test_changes := all_changes_sorted test_files
  let er := emit_change_sections prod_changes (some detailed_cap)
  let breaking_in_prod := (prod_changes.filter (fun pc => pc.2.breaking)).length
  let remaining_prod : Int :=
    (prod_changes.length : Int) - (er.2 : Int) - (breaking_in_prod : Int)
  let ts := test_section test_changes er.2
  let remaining := remaining_prod + ts.2
  breaking_section summary ++ er.1 ++ ts.1
  ++ (if 0 < remaining then ["(and " ++ toString remaining ++ " more)", ""] else [])
  ++ skipped_section all_files show_skipped

/-- `_build_detailed`'s returned string: `"\n".join(lines).strip()`. -/
def build_detailed (prod_files test_files all_files : List FileChange)
    (summary : Summary) (show_skipped : Bool) : String :=
  py_strip (String.intercalate "\n"
    (build_detailed_lines prod_files test_files all_files summary show_skipped))

/-! ## engine/pipeline.py -/

/-- `HunkHeader` from git.py. -/
structure HunkHeader where
  old_start : Nat
  old_count : Nat
  new_start : Nat
  new_count : Nat
  sec : String := ""  -- the `section` label field (keyword in Lean)
deriving DecidableEq, Repr

/-- `DiffHunk` from git.py. -/
structure DiffHunk where
  header : HunkHeader
  lines : List DiffLine := []
deriving DecidableEq, Repr

/-- `FileDiff` from git.py. -/
structure FileDiff where
  old_path : Option String
  new_path : Option String
  change_type : String := "modified"
  binary : Bool := false
  generated : Bool := false
  hunks : List DiffHunk := []
deriving DecidableEq, Repr

/-- Python `a or b` for an optional string (`None` and `""` are falsy). -/
def str_or (a : Option String) (b : String) : String :=
  match a with
  | some s => if s == "" then b else s
  | none => b

/-- The `FileDiff.path` property: `new_path or old_path or ""`. -/
def fd_path (fd : FileDiff) : String := str_or fd.new_path (str_or fd.old_path "")

/-- `os.path.splitext(filename)[1]`: the extension of the final path
segment, empty when the dot would leave only leading dots before it. -/
def splitext_ext (filename : String) : String :=
  let base := (filename.toList.reverse.takeWhile (fun c => c != '/')).reverse
  let rev := base.reverse
  let extRev := rev.takeWhile (fun c => c != '.')
  if extRev.length == rev.length then ""
  else
    let stem := (rev.drop (extRev.length + 1)).reverse
    if stem.any (fun c => c != '.') then String.mk ('.' :: extRev.reverse) else ""

/-- The `_EXTENSION_MAP` lookup from languages/__init__.py. -/
def extension_map_get (ext : String) : Option String :=
  if ext == ".py" then some "python"
  else if ext == ".js" then some "javascript"
  else if ext == ".jsx" then some "javascript"
  else if ext == ".ts" then some "typescript"
  else if ext == ".tsx" then some "typescript"
  else if ext == ".go" then some "go"
  else none

/-- `detect_language` from languages/__init__.py. -/
def detect_language (filename : String) : Option String :=
  extension_map_get (splitext_ext filename)

/-- `ref_range.split("..")`: left-to-right non-overlapping split on the
two-character separator. -/
def split_on_dotdot : List Char → List Char → List String
  | '.' :: '.' :: rest, cur => String.mk cur :: split_on_dotdot rest []
  | c :: rest, cur => split_on_dotdot rest (cur ++ [c])
  | [], cur => [String.mk cur]

/-- `parts = ref_range.split("..")`. -/
def ref_split (ref_range : String) : List String := split_on_dotdot ref_range.toList []

/-- `old_ref = parts[0] if len(parts) == 2 else f"{ref_range}~1"`. -/
def old_ref_of (ref_range : String) : String :=
  let parts := ref_split ref_range
  if parts.length == 2 then parts.headD "" else ref_range ++ "~1"

/-- `new_ref = parts[1] if len(parts) == 2 else ref_range`. -/
def new_ref_of (ref_range : String) : String :=
  let parts := ref_split ref_range
  if parts.length == 2 then parts.getD 1 "" else ref_range

/-- `get_content(ref, path or "") if path else None` — one side's source
lookup in `_process_file` (`None` and `""` paths yield no content). -/
def side_source (gc : String → String → Option String) (ref : String) :
    Option String → Option String
  | some p => if p == "" then none else gc ref p
  | none => none

/-- The `id()`-set filter at the end of `_process_file`, under value
semantics: each matched symbol object is removed exactly once, and the
matcher always consumes the earliest equal-valued occurrence first, so
removing first occurrences is observably identical. -/
def remove_matched (symbols matched : List Symbol) : List Symbol :=
  matched.foldl (fun acc s => acc.erase s) symbols

/-- `_process_file` from engine/pipeline.py.  `parse_file` wraps the
external tree-sitter structural parser (spec §6) and is passed in as
`parse_fn : source → language → ParseResult`; `get_content` is the
injected content provider.  Returns the `FileChange` plus the per-file
unmatched old/new symbol lists staged for the cross-file move pass. -/
def process_file (parse_fn : String → String → ParseResult) (fd : FileDiff)
    (ref_range : String) (get_content : Option (String → String → Option String)) :
    FileChange × List Symbol × List Symbol :=
  let path := fd_path fd
  if fd.generated then
    ({ path := path, change_type := fd.change_type, generated := true }, [], [])
  else if fd.binary then
    ({ path := path, change_type := fd.change_type, binary := true }, [], [])
  else
    match detect_language path with
    | none =>
      ({ path := path, change_type := fd.change_type, unsupported_language := true }, [], [])
    | some language =>
      match get_content with
      | none => ({ path := path, language := some language, change_type := fd.change_type }, [], [])
      | some gc =>
        let old_source := side_source gc (old_ref_of ref_range) fd.old_path
        let new_source := side_source gc (new_ref_of ref_range) fd.new_path
        let old_symbols := match old_source with
          | some src => (parse_fn src language).symbols
          | none => []
        let old_err := match old_source with
          | some src => (parse_fn src language).parse_error
          | none => false
        let new_symbols := match new_source with
          | some src => (parse_fn src language).symbols
          | none => []
        let new_err := match new_source with
          | some src => (parse_fn src language).parse_error
          | none => false
        let ms := match_symbols old_symbols new_symbols
        let changes := classify_changes ms
        let matched_olds := ms.filterMap (fun m =>
          match m.old, m.new with
          | some o, some _ => some o
          | _, _ => none)
        let matched_news := ms.filterMap (fun m =>
          match m.old, m.new with
          | some _, some n => some n
          | _, _ => none)
        ({ path := path, language := some language, change_type := fd.change_type,
           parse_error := old_err || new_err, changes := changes },
         remove_matched old_symbols matched_olds,
         remove_matched new_symbols matched_news)

/-- `c.kind.endswith(("_added", "_removed"))` on the schema kinds. -/
def is_add_remove_kind : ChangeKind → Bool
  | .function_added | .class_added | .function_removed | .class_removed => true
  | _ => false

/-- `move_paths.get(name)`: the dict comprehension over qualifying moves
keeps the last binding per `m.old.name`.  A move qualifies when
`m.old and m.file_from and m.file_to` is truthy, so an empty-string
`file_from` or `file_to` is excluded just like `None`. -/
def move_paths_find (moves : List MatchedSymbol) (nm : String) : Option (String × String) :=
  moves.reverse.findSome? (fun m =>
    match m.old, m.file_from, m.file_to with
    | some o, some ff, some ft =>
      if ff != "" && ft != "" && o.name == nm then some (ff, ft) else none
    | _, _, _ => none)

/-- Mutation of the last `FileChange` whose path is `p` (the
`fc_map = {fc.path: fc}` comprehension keeps the last object per path, and
mutating it is visible at that list position); no-op when absent. -/
def update_first_fc : List FileChange → String → (FileChange → FileChange) → List FileChange
  | [], _, _ => []
  | fc :: rest, p, f => if fc.path == p then f fc :: rest else fc :: update_first_fc rest p f

/-- Apply `f` to the last element with path `p`. -/
def update_last_fc (fcs : List FileChange) (p : String) (f : FileChange → FileChange) :
    List FileChange :=
  (update_first_fc fcs.reverse p f).reverse

/-- The stale-entry filter of `_apply_moves`: drop added/removed changes
bearing the moved name. -/
def strip_stale (nm : String) (fc : FileChange) : FileChange :=
  { fc with changes := fc.changes.filter (fun c => !(c.name == nm && is_add_remove_kind c.kind)) }

/-- One iteration of the `for mc in move_changes` loop of `_apply_moves`. -/
def apply_one_move (moves : List MatchedSymbol) (fcs : List FileChange) (mc : SymbolChange) :
    List FileChange :=
  if mc.kind != ChangeKind.moved then fcs
  else
    match move_paths_find moves mc.name with
    | none => fcs
    | some sd =>
      let fcs1 := update_last_fc fcs sd.1 (strip_stale mc.name)
      let fcs2 := update_last_fc fcs1 sd.2 (strip_stale mc.name)
      update_last_fc fcs2 sd.2 (fun fc => { fc with changes := fc.changes ++ [mc] })

/-- `_apply_moves` from engine/pipeline.py (functional form: returns the
patched file-change list instead of mutating it). -/
def apply_moves (moves : List MatchedSymbol) (file_changes : List FileChange) :
    List FileChange :=
  (classify_changes moves).foldl (apply_one_move moves) file_changes

/-! ## Helper lemmas -/

theorem zip_append_self {α : Type} (l t : List α) : l.zip (l ++ t) = l.zip l := by
  induction l with
  | nil => simp
  | cons x xs ih => rw [List.cons_append, List.zip_cons_cons, List.zip_cons_cons, ih]

theorem any_diag_param_false (l : List String) :
    (l.zip l).any (fun pq =>
      strip_default pq.1 != strip_default pq.2
      || (param_default_value pq.1 != param_default_value pq.2
          && (param_default_value pq.1).isSome && (param_default_value pq.2).isSome)) = false := by
  induction l with
  | nil => simp
  | cons x xs ih => rw [List.zip_cons_cons]; simp [ih]

theorem any_not_contains_self_false (l : List String) :
    (l.any (fun nm => !(l.contains nm))) = false := by
  simp only [List.any_eq_false]
  intro nm hnm
  simp [List.contains, List.elem_iff, hnm]


/-! ## Claim C7 -/

/-- C7: while scanning a hunk body, `parse_diff` treats a completely blank
input line as an empty context line — appending a context `DiffLine` and
incrementing both the old and new line counters — exactly when the next
input line is another diff line (starts with `diff --git `, `@@`, `+`,
`-`, a space, or `\ `); otherwise it consumes the blank line, ends the
hunk there, emits no `DiffLine` and leaves both counters untouched. -/
theorem c7_blank_line_context (rest : List String) (old_ln new_ln : Nat) (acc : List DiffLine) :
    parse_hunk_body ("" :: rest) old_ln new_ln acc =
      if blank_continues rest then
        parse_hunk_body rest (old_ln + 1) (new_ln + 1)
          (acc ++ [⟨" ", "", some old_ln, some new_ln⟩])
      else (acc, rest) := by
  rfl

/-! ## Claim C3 -/

theorem cross_go_guard (olds : List (String × Symbol)) (flat : List (String × Nat × Symbol))
    (matched : List Nat) (m : MatchedSymbol) (hm : m ∈ cross_go olds flat matched) :
    ∃ o n, m.old = some o ∧ m.new = some n ∧
      (o.signature = n.signature ∨ o.body_hash = n.body_hash) := by
  induction olds generalizing matched with
  | nil => simp [cross_go] at hm
  | cons hd tl ih =>
    rw [cross_go] at hm
    rcases hstep : cross_file_step hd.1 hd.2 flat matched with _ | fns
    · rw [hstep] at hm
      exact ih _ hm
    · rw [hstep] at hm
      rcases List.mem_cons.mp hm with hEq | hMem
      · subst hEq
        rw [cross_file_step] at hstep
        have hp := List.find?_some hstep
        refine ⟨hd.2, fns.2.2, rfl, rfl, ?_⟩
        simp only [Bool.and_eq_true, Bool.not_eq_true', Bool.and_eq_false_iff,
          bne_eq_false_iff_eq] at hp
        rcases hp.1.2 with h1 | h1
        · exact Or.inl h1
        · exact Or.inr h1
      · exact ih _ hMem

/-- C3: every `MatchedSymbol` returned by `match_cross_file` pairs an old
and a new symbol that agree on signature text or on body hash; a pair
differing in both is never returned. -/
theorem c3_cross_file_guard (unmatched_old unmatched_new : List (String × List Symbol))
    (m : MatchedSymbol) (hm : m ∈ match_cross_file unmatched_old unmatched_new) :
    ∃ o n, m.old = some o ∧ m.new = some n ∧
      (o.signature = n.signature ∨ o.body_hash = n.body_hash) :=
  cross_go_guard _ _ _ m hm

/-- Witness for C3 at a concrete one-symbol-per-file input. -/
theorem c3_cross_file_guard_witness :
    (⟨some ⟨"h", "function", "def h(a)", 1, 3, "hh", none⟩,
      some ⟨"h", "function", "def h(a)", 5, 7, "hh2", none⟩,
      some "a.py", some "b.py"⟩ : MatchedSymbol) ∈
      match_cross_file [("a.py", [⟨"h", "function", "def h(a)", 1, 3, "hh", none⟩])]
        [("b.py", [⟨"h", "function", "def h(a)", 5, 7, "hh2", none⟩])] ∧
    ∃ o n, (⟨some ⟨"h", "function", "def h(a)", 1, 3, "hh", none⟩,
      some ⟨"h", "function", "def h(a)", 5, 7, "hh2", none⟩,
      some "a.py", some "b.py"⟩ : MatchedSymbol).old = some o ∧
      (⟨some ⟨"h", "function", "def h(a)", 1, 3, "hh", none⟩,
        some ⟨"h", "function", "def h(a)", 5, 7, "hh2", none⟩,
        some "a.py", some "b.py"⟩ : MatchedSymbol).new = some n ∧
      (o.signature = n.signature ∨ o.body_hash = n.body_hash) :=
  ⟨by decide,
   c3_cross_file_guard [("a.py", [⟨"h", "function", "def h(a)", 1, 3, "hh", none⟩])]
     [("b.py", [⟨"h", "function", "def h(a)", 5, 7, "hh2", none⟩])] _ (by decide)⟩

/-! ## Claim C1 -/

/-- C1 counterexample: a matched pair whose signature texts differ but
whose body hashes are equal produces no change at all (the equal-body-hash
filter runs first), and a cross-file-moved pair with differing signatures
and differing hashes produces a `moved` record, not `signature_changed`.
So "signature text differs → one signature_changed record" is false as
stated. -/
theorem c1_counterexample :
    classify_changes [⟨some ⟨"f", "function", "def f(a)", 1, 2, "h", none⟩,
                       some ⟨"f", "function", "def f(b)", 1, 2, "h", none⟩, none, none⟩] = []
    ∧ ("def f(a)" : String) ≠ "def f(b)"
    ∧ classify_changes [⟨some ⟨"g", "function", "def g(a)", 1, 2, "h1", none⟩,
                        some ⟨"g", "function", "def g(b)", 3, 4, "h2", none⟩,
                        some "a.py", some "b.py"⟩] =
        [{ kind := .moved, name := "g", signature := some "def g(b)",
           file_from := some "a.py", line := some 3 }] := by
  refine ⟨by decide, by decide, by decide⟩

/-- C1 (amended): for every `MatchedSymbol` with both sides present, no
`file_from`, differing body hashes and differing signature texts,
`classify_changes` emits exactly one `signature_changed` record whose
breaking flag is `is_breaking_change` applied to the two signature
texts. -/
theorem c1_amended_signature_changed (m : MatchedSymbol) (o n : Symbol)
    (ho : m.old = some o) (hn : m.new = some n) (hf : m.file_from = none)
    (hh : o.body_hash ≠ n.body_hash) (hs : o.signature ≠ n.signature) :
    classify_changes [m] =
      [{ kind := .signature_changed, name := n.name,
         before_signature := some o.signature, after_signature := some n.signature,
         line := some n.start_line,
         breaking := is_breaking_change o.signature n.signature }] := by
  obtain ⟨mo, mn, mff, mft⟩ := m
  simp only at ho hn hf
  subst ho hn hf
  simp [classify_changes, classify_one, beq_eq_false_iff_ne, hh, bne, hs]

/-- Witness for C1 (amended) at a concrete matched pair. -/
theorem c1_amended_signature_changed_witness :
    ((⟨some ⟨"f", "function", "def f(a)", 1, 2, "h1", none⟩,
       some ⟨"f", "function", "def f(a, b)", 1, 2, "h2", none⟩, none, none⟩ :
         MatchedSymbol).old = some ⟨"f", "function", "def f(a)", 1, 2, "h1", none⟩)
    ∧ ("h1" : String) ≠ "h2"
    ∧ classify_changes [⟨some ⟨"f", "function", "def f(a)", 1, 2, "h1", none⟩,
        some ⟨"f", "function", "def f(a, b)", 1, 2, "h2", none⟩, none, none⟩] =
      [{ kind := .signature_changed, name := "f",
         before_signature := some "def f(a)", after_signature := some "def f(a, b)",
         line := some 1,
         breaking := is_breaking_change "def f(a)" "def f(a, b)" }] :=
  ⟨by decide, by decide,
   c1_amended_signature_changed
     ⟨some ⟨"f", "function", "def f(a)", 1, 2, "h1", none⟩,
      some ⟨"f", "function", "def f(a, b)", 1, 2, "h2", none⟩, none, none⟩
     ⟨"f", "function", "def f(a)", 1, 2, "h1", none⟩
     ⟨"f", "function", "def f(a, b)", 1, 2, "h2", none⟩
     (by decide) (by decide) (by decide) (by decide) (by decide)⟩

/-! ## Claim C4 -/

/-- C4: when the new signature's positional parameter list extends the old
one by appended parameters at least one of which lacks a default, with the
keyword-only list and return type unchanged, `is_breaking_change` is true
and `classify_signature_change` returns "PARAMETER ADDED (BREAKING)". -/
theorem c4_param_added_breaking (old_sig new_sig : String)
    (old_pos old_kw added : List String)
    (hne : old_sig ≠ new_sig)
    (hold : split_pos_kw (extract_params old_sig) = (old_pos, old_kw))
    (hnew : split_pos_kw (extract_params new_sig) = (old_pos ++ added, old_kw))
    (hadd : ∃ p ∈ added, param_has_default p = false)
    (hret : extract_return_type old_sig = extract_return_type new_sig) :
    is_breaking_change old_sig new_sig = true ∧
    classify_signature_change old_sig new_sig = "PARAMETER ADDED (BREAKING)" := by
  obtain ⟨p, hp, hpd⟩ := hadd
  have hlen0 : 0 < added.length := by
    cases added with
    | nil => exact absurd hp (by simp)
    | cons q qs => simp
  have hne2 : ¬ ((old_sig == new_sig) = true) := by simp [hne]
  have hlen : ¬ ((old_pos ++ added).length < old_pos.length) := by
    simp [List.length_append]
  have hcond3 : (decide (old_pos.length < (old_pos ++ added).length)
      && ((old_pos ++ added).drop old_pos.length).any (fun q => !(param_has_default q))) = true := by
    rw [List.drop_left]
    simp only [List.length_append, Bool.and_eq_true, decide_eq_true_eq, List.any_eq_true]
    exact ⟨by omega, ⟨p, hp, by simp [hpd]⟩⟩
  have hdiag : ((old_pos.zip (old_pos ++ added)).any (fun pq =>
      strip_default pq.1 != strip_default pq.2
      || (param_default_value pq.1 != param_default_value pq.2
          && (param_default_value pq.1).isSome && (param_default_value pq.2).isSome))) = false := by
    rw [zip_append_self]
    exact any_diag_param_false old_pos
  have hkw : ((old_kw.map kw_name).any (fun nm => !((old_kw.map kw_name).contains nm))) = false :=
    any_not_contains_self_false _
  constructor
  · rw [is_breaking_change, if_neg hne2]
    simp only [hold, hnew]
    rw [if_neg hlen, if_neg (by simp [hdiag]), if_pos hcond3]
  · rw [classify_signature_change, if_neg hne2]
    simp only [hold, hnew]
    rw [if_neg hlen, if_neg (by rw [hkw]; exact Bool.false_ne_true), if_pos hcond3]

/-- Witness for C4 at the spec's own example pair. -/
theorem c4_param_added_breaking_witness :
    split_pos_kw (extract_params "def helper(a)") = (["a"], []) ∧
    split_pos_kw (extract_params "def helper(a, b)") = (["a"] ++ ["b"], []) ∧
    is_breaking_change "def helper(a)" "def helper(a, b)" = true ∧
    classify_signature_change "def helper(a)" "def helper(a, b)" = "PARAMETER ADDED (BREAKING)" :=
  ⟨by decide, by decide,
   c4_param_added_breaking "def helper(a)" "def helper(a, b)" ["a"] [] ["b"]
     (by decide) (by decide) (by decide) ⟨"b", by decide, by decide⟩ (by decide)⟩

/-! ## Claim C10 -/

theorem extract_params_mem_pred (sig p : String) (hmem : p ∈ extract_params sig) :
    (p != "" && p != "self" && p != "cls") = true := by
  rw [extract_params] at hmem
  rcases hb : extract_balanced_params sig with _ | ps
  · rw [hb] at hmem; simp at hmem
  · rw [hb] at hmem
    dsimp only at hmem
    by_cases hq : (py_strip ps == "") = true
    · rw [if_pos hq] at hmem; simp at hmem
    · rw [if_neg hq] at hmem
      exact (List.mem_filter.mp hmem).2

theorem kw_map_find_self (kws : List String) (hnd : (kws.map kw_name).Nodup)
    (k : String) (hk : k ∈ kws) : kw_map_find kws (kw_name k) = some k := by
  have hs : (kws.reverse.find? (fun q => kw_name q == kw_name k)).isSome := by
    exact List.find?_isSome.mpr ⟨k, List.mem_reverse.mpr hk, by simp⟩
  rcases hk0 : kws.reverse.find? (fun q => kw_name q == kw_name k) with _ | k0
  · rw [hk0] at hs; simp at hs
  · have hmem : k0 ∈ kws := List.mem_reverse.mp (List.mem_of_find?_eq_some hk0)
    have hname : kw_name k0 = kw_name k := by
      have := List.find?_some hk0
      simpa using this
    have : k0 = k := List.inj_on_of_nodup_map hnd hmem hk hname
    rw [kw_map_find, hk0, this]

/-- C10 counterexample: `extract_params` does drop a bare `self` anywhere,
but `is_breaking_change` can still return true for two signatures that
differ only by such an insertion — via the return-type regex matching an
inner `)` (first pair), or via duplicated keyword-only parameter names
(second pair). -/
theorem c10_counterexample :
    extract_params "def f(g: (int) -> str, x)" = extract_params "def f(g: (int) -> str, self, x)"
    ∧ is_breaking_change "def f(g: (int) -> str, x)" "def f(g: (int) -> str, self, x)" = true
    ∧ extract_return_type "def f(g: (int) -> str, x)" = some "str, x)"
    ∧ extract_return_type "def f(g: (int) -> str, self, x)" = some "str, self, x)"
    ∧ extract_params "def f(*, a: int, a: str)" = extract_params "def f(self, *, a: int, a: str)"
    ∧ extract_return_type "def f(*, a: int, a: str)"
        = extract_return_type "def f(self, *, a: int, a: str)"
    ∧ is_breaking_change "def f(*, a: int, a: str)" "def f(self, *, a: int, a: str)" = true := by
  refine ⟨by decide, by decide, by decide, by decide, by decide, by decide, by decide⟩

/-- C10 (amended): `extract_params` removes every parameter whose entire
text is exactly `self` or `cls`, at any position; consequently
`is_breaking_change` returns false for two signatures with equal extracted
parameter lists (as produced by inserting/removing a bare `self`/`cls`)
provided the keyword-only parameter names are pairwise distinct and the
extracted return types agree. -/
theorem c10_amended_self_cls :
    (∀ sig : String, "self" ∉ extract_params sig ∧ "cls" ∉ extract_params sig) ∧
    (∀ old_sig new_sig : String,
      extract_params old_sig = extract_params new_sig →
      (((split_pos_kw (extract_params old_sig)).2).map kw_name).Nodup →
      extract_return_type old_sig = extract_return_type new_sig →
      is_breaking_change old_sig new_sig = false) := by
  constructor
  · intro sig
    constructor
    · intro hmem
      have := extract_params_mem_pred sig "self" hmem
      simp at this
    · intro hmem
      have := extract_params_mem_pred sig "cls" hmem
      simp at this
  · intro old_sig new_sig hp hnd hret
    by_cases heq : (old_sig == new_sig) = true
    · rw [is_breaking_change, if_pos heq]
    · rw [is_breaking_change, if_neg heq]
      simp only [← hp]
      rw [if_neg (by simp)]
      rw [if_neg (by rw [any_diag_param_false]; exact Bool.false_ne_true)]
      rw [if_neg (by simp)]
      rw [if_neg ?cond4]
      case cond4 =>
        intro hany
        obtain ⟨k, hk, hkp⟩ := List.any_eq_true.mp hany
        rw [kw_map_find_self _ hnd k hk] at hkp
        simp at hkp
      rw [if_neg (by rw [any_not_contains_self_false]; exact Bool.false_ne_true)]
      rw [if_neg ?cond6]
      case cond6 =>
        intro hany
        obtain ⟨k, hk, hkp⟩ := List.any_eq_true.mp hany
        rw [kw_map_find_self _ hnd k hk] at hkp
        simp at hkp
      simp [hret]

/-- Witness for C10 (amended): a signature pair differing only by a bare
`self` parameter. -/
theorem c10_amended_self_cls_witness :
    extract_params "def g(a)" = extract_params "def g(self, a)"
    ∧ extract_return_type "def g(a)" = extract_return_type "def g(self, a)"
    ∧ "self" ∉ extract_params "def g(self, a)"
    ∧ is_breaking_change "def g(a)" "def g(self, a)" = false :=
  ⟨by decide, by decide, (c10_amended_self_cls.1 "def g(self, a)").1,
   c10_amended_self_cls.2 "def g(a)" "def g(self, a)" (by decide) (by decide) (by decide)⟩

/-! ## Claim C6 -/

theorem dropWhile_head_false {α : Type} (p : α → Bool) (l : List α) (c : α) (t : List α)
    (h : l.dropWhile p = c :: t) : p c = false := by
  induction l with
  | nil => simp at h
  | cons a rest ih =>
    rw [List.dropWhile_cons] at h
    by_cases ha : p a = true
    · rw [if_pos ha] at h
      exact ih h
    · rw [if_neg ha] at h
      obtain ⟨rfl, -⟩ := List.cons.inj h
      exact Bool.not_eq_true _ |>.mp ha

theorem ws_go_nonspace (t y : List Char) (acc : List Char)
    (ht : ∀ c ∈ t, pyIsSpace c = false) :
    ws_tokens_go (t ++ y) acc = ws_tokens_go y (t.reverse ++ acc) := by
  induction t generalizing acc with
  | nil => simp
  | cons c rest ih =>
    have hc : pyIsSpace c = false := ht c (by simp)
    rw [List.cons_append, ws_tokens_go, hc]
    simp only [Bool.false_eq_true, if_false]
    rw [ih _ (fun d hd => ht d (by simp [hd]))]
    simp

theorem ws_go_all_space (sp : List Char) (acc : List Char)
    (hsp : ∀ c ∈ sp, pyIsSpace c = true) :
    ws_tokens_go sp acc = if acc.isEmpty then [] else [acc.reverse] := by
  induction sp generalizing acc with
  | nil => rfl
  | cons c rest ih =>
    have hc : pyIsSpace c = true := hsp c (by simp)
    rw [ws_tokens_go, hc]
    by_cases ha : acc.isEmpty
    · simp only [if_pos ha, ha]
      rw [ih [] (fun d hd => hsp d (by simp [hd]))]
      simp
    · simp only [if_neg ha, ha]
      rw [ih [] (fun d hd => hsp d (by simp [hd]))]
      simp [ha]

theorem ws_go_append_space (x sp : List Char) (acc : List Char)
    (hsp : ∀ c ∈ sp, pyIsSpace c = true) :
    ws_tokens_go (x ++ sp) acc = ws_tokens_go x acc := by
  induction x generalizing acc with
  | nil =>
    rw [List.nil_append, ws_go_all_space sp acc hsp, ws_tokens_go]
  | cons c rest ih =>
    rw [List.cons_append, ws_tokens_go, ws_tokens_go]
    by_cases hc : pyIsSpace c = true
    · rw [hc]
      by_cases ha : acc.isEmpty = true
      · rw [if_pos ha, if_pos ha, ih]
        simp
      · rw [if_neg ha, if_neg ha, ih]
        simp
    · rw [Bool.not_eq_true _ |>.mp hc]
      simp only [Bool.false_eq_true, if_false]
      exact ih _

theorem ws_tokens_cons_space (d : Char) (r : List Char) (hd : pyIsSpace d = true) :
    ws_tokens (d :: r) = ws_tokens r := by
  rw [ws_tokens, ws_tokens_go, hd]
  simp [ws_tokens]

theorem ws_tokens_dropWhile (l : List Char) :
    ws_tokens (l.dropWhile pyIsSpace) = ws_tokens l := by
  induction l with
  | nil => rfl
  | cons c rest ih =>
    rw [List.dropWhile_cons]
    by_cases hc : pyIsSpace c = true
    · rw [if_pos hc, ih, ws_tokens_cons_space c rest hc]
    · rw [if_neg hc]

theorem ws_tokens_strip (l : List Char) : ws_tokens (pyStripL l) = ws_tokens l := by
  rw [pyStripL]
  have h1 : (l.dropWhile pyIsSpace).reverse =
      (l.dropWhile pyIsSpace).reverse.takeWhile pyIsSpace
      ++ (l.dropWhile pyIsSpace).reverse.dropWhile pyIsSpace :=
    (List.takeWhile_append_dropWhile _ _).symm
  have hdecomp : l.dropWhile pyIsSpace =
      ((l.dropWhile pyIsSpace).reverse.dropWhile pyIsSpace).reverse
      ++ ((l.dropWhile pyIsSpace).reverse.takeWhile pyIsSpace).reverse := by
    conv_lhs => rw [← List.reverse_reverse (l.dropWhile pyIsSpace), h1]
    rw [List.reverse_append]
  have hsp : ∀ c ∈ ((l.dropWhile pyIsSpace).reverse.takeWhile pyIsSpace).reverse,
      pyIsSpace c = true := by
    intro c hc
    rw [List.mem_reverse] at hc
    exact List.mem_takeWhile_imp hc
  calc ws_tokens ((l.dropWhile pyIsSpace).reverse.dropWhile pyIsSpace).reverse
      = ws_tokens (((l.dropWhile pyIsSpace).reverse.dropWhile pyIsSpace).reverse
          ++ ((l.dropWhile pyIsSpace).reverse.takeWhile pyIsSpace).reverse) := by
        rw [ws_tokens, ws_tokens, ws_go_append_space _ _ _ hsp]
    _ = ws_tokens (l.dropWhile pyIsSpace) := by rw [← hdecomp]
    _ = ws_tokens l := ws_tokens_dropWhile l

theorem token_step (m : List Char) (hne : m ≠ [])
    (hA : ∀ c, m.head? = some c → pyIsSpace c = false) :
    ws_tokens m = m.takeWhile (fun c => !pyIsSpace c)
      :: ws_tokens (m.dropWhile (fun c => !pyIsSpace c)) := by
  have hsplit : m = m.takeWhile (fun c => !pyIsSpace c)
      ++ m.dropWhile (fun c => !pyIsSpace c) := (List.takeWhile_append_dropWhile _ _).symm
  have ht : ∀ c ∈ m.takeWhile (fun c => !pyIsSpace c), pyIsSpace c = false := by
    intro c hc
    have := List.mem_takeWhile_imp hc
    simpa using this
  have htne : m.takeWhile (fun c => !pyIsSpace c) ≠ [] := by
    obtain ⟨a, rest, rfl⟩ := List.exists_cons_of_ne_nil hne
    have ha : pyIsSpace a = false := hA a rfl
    rw [List.takeWhile_cons]
    simp [ha]
  rw [ws_tokens]
  conv_lhs => rw [hsplit]
  rw [ws_go_nonspace _ _ _ ht]
  rcases hr : m.dropWhile (fun c => !pyIsSpace c) with _ | ⟨d, r2⟩
  · rw [ws_tokens_go]
    simp [ws_tokens, ws_tokens_go, htne]
  · have hd : pyIsSpace d = true := by
      have := dropWhile_head_false (fun c => !pyIsSpace c) m d r2 hr
      simpa using this
    rw [ws_tokens_cons_space d r2 hd, ws_tokens_go, hd]
    simp only [if_true]
    rw [if_neg (by simpa using htne)]
    simp [ws_tokens]

theorem collapse_go_nonspace (t y : List Char) (ht : ∀ c ∈ t, pyIsSpace c = false) :
    collapse_go (t ++ y) false = t ++ collapse_go y false := by
  induction t with
  | nil => rfl
  | cons c rest ih =>
    have hc : pyIsSpace c = false := ht c (by simp)
    rw [List.cons_append, collapse_go, hc]
    simp only [Bool.false_eq_true, if_false, List.cons_append]
    rw [ih (fun d hd => ht d (by simp [hd]))]

theorem collapse_go_true_drop (r : List Char) :
    collapse_go r true = collapse_go (r.dropWhile pyIsSpace) false := by
  induction r with
  | nil => rfl
  | cons c rest ih =>
    rw [collapse_go, List.dropWhile_cons]
    by_cases hc : pyIsSpace c = true
    · rw [hc, if_pos rfl, if_pos rfl, ih]
      simp
    · rw [Bool.not_eq_true _ |>.mp hc]
      rw [if_neg (by simp), if_neg (by simp [hc]), collapse_go]
      rw [Bool.not_eq_true _ |>.mp hc]
      simp

theorem length_dropWhile_le2 {α : Type} (p : α → Bool) (l : List α) :
    (l.dropWhile p).length ≤ l.length := by
  induction l with
  | nil => simp
  | cons c rest ih =>
    rw [List.dropWhile_cons]
    by_cases hc : p c = true
    · rw [if_pos hc]
      exact Nat.le_succ_of_le ih
    · rw [if_neg hc]

theorem getLast?_all_space (u : List Char) (hne : u ≠ [])
    (hall : ∀ c ∈ u, pyIsSpace c = true) :
    ∃ c, u.getLast? = some c ∧ pyIsSpace c = true := by
  refine ⟨u.getLast hne, ?_, ?_⟩
  · simp [List.getLast?_eq_getLast u hne]
  · exact hall _ (List.getLast_mem hne)

theorem intercalate_cons_of_ne {α : Type} (s x : List α) (ys : List (List α)) (h : ys ≠ []) :
    List.intercalate s (x :: ys) = x ++ s ++ List.intercalate s ys := by
  rcases ys with _ | ⟨y, t⟩
  · exact absurd rfl h
  · simp [List.intercalate, List.intersperse]

theorem last_nonspace_of_append {m2 pre : List Char} (m : List Char)
    (hm : m = pre ++ m2) (hm2 : m2 ≠ [])
    (hB : ∀ c, m.getLast? = some c → pyIsSpace c = false) :
    ∀ c, m2.getLast? = some c → pyIsSpace c = false := by
  intro c hc
  apply hB
  rw [hm, List.getLast?_append_of_ne_nil _ hm2]
  exact hc

theorem collapse_eq_tokens_aux : ∀ (n : Nat) (m : List Char), m.length ≤ n →
    (∀ c, m.head? = some c → pyIsSpace c = false) →
    (∀ c, m.getLast? = some c → pyIsSpace c = false) →
    collapse_ws m = List.intercalate [' '] (ws_tokens m) := by
  intro n
  induction n with
  | zero =>
    intro m hm _ _
    have : m = [] := List.eq_nil_of_length_eq_zero (Nat.le_zero.mp hm)
    subst this
    rfl
  | succ n ih =>
    intro m hm hA hB
    rcases hmm : m with _ | ⟨a, rest⟩
    · rfl
    · subst hmm
      set t := (a :: rest).takeWhile (fun c => !pyIsSpace c) with hT
      set r := (a :: rest).dropWhile (fun c => !pyIsSpace c) with hR
      have hsplit : a :: rest = t ++ r := (List.takeWhile_append_dropWhile _ _).symm
      have ht : ∀ c ∈ t, pyIsSpace c = false := by
        intro c hc
        have := List.mem_takeWhile_imp hc
        simpa using this
      have htne : t ≠ [] := by
        have ha : pyIsSpace a = false := hA a rfl
        rw [hT, List.takeWhile_cons]
        simp [ha]
      have htok := token_step (a :: rest) (by simp) hA
      rw [← hT, ← hR] at htok
      rcases hr : r with _ | ⟨d, r2⟩
      · -- single-token case: the whole list is non-whitespace
        have hmt : a :: rest = t := by rw [hsplit, hr, List.append_nil]
        rw [htok, hr]
        have h0 : ws_tokens ([] : List Char) = [] := rfl
        rw [h0]
        rw [collapse_ws]
        conv_lhs => rw [hmt, ← List.append_nil t]
        rw [collapse_go_nonspace _ _ ht]
        simp [List.intercalate, collapse_go]
      · have hd : pyIsSpace d = true := by
          have := dropWhile_head_false (fun c => !pyIsSpace c) (a :: rest) d r2 hr
          simpa using this
        set m2 := r2.dropWhile pyIsSpace with hM2
        have hm2pre : r2 = r2.takeWhile pyIsSpace ++ m2 := (List.takeWhile_append_dropWhile _ _).symm
        have hmdecomp : a :: rest = (t ++ d :: r2.takeWhile pyIsSpace) ++ m2 := by
          rw [hsplit, hr]
          conv_lhs => rw [hm2pre]
          simp
        have hA2 : ∀ c, m2.head? = some c → pyIsSpace c = false := by
          intro c hc
          rcases hm2c : m2 with _ | ⟨e, es⟩
          · rw [hm2c] at hc; simp at hc
          · rw [hm2c] at hc
            simp only [List.head?_cons, Option.some.injEq] at hc
            rw [← hc]
            exact dropWhile_head_false pyIsSpace r2 e es (by rw [← hM2, hm2c])
        have hm2ne : m2 ≠ [] := by
          intro hnil
          have hall : ∀ c ∈ d :: r2.takeWhile pyIsSpace, pyIsSpace c = true := by
            intro c hc
            rcases List.mem_cons.mp hc with heq | hmem2
            · rw [heq]; exact hd
            · exact List.mem_takeWhile_imp hmem2
          obtain ⟨c, hlast, hcsp⟩ := getLast?_all_space (d :: r2.takeWhile pyIsSpace)
            (by simp) hall
          have h1 : (a :: rest).getLast? = some c := by
            rw [hmdecomp, hnil, List.append_nil,
              List.getLast?_append_of_ne_nil _ (by simp)]
            exact hlast
          have := hB c h1
          rw [hcsp] at this
          simp at this
        have hB2 : ∀ c, m2.getLast? = some c → pyIsSpace c = false :=
          last_nonspace_of_append (a :: rest) hmdecomp hm2ne hB
        have hlen2 : m2.length ≤ n := by
          have h1 : m2.length ≤ r2.length := by
            rw [hM2]
            exact length_dropWhile_le2 pyIsSpace r2
          have h2 : (t ++ d :: r2).length = (a :: rest).length := by rw [← hr, ← hsplit]
          have h3 : rest.length + 1 ≤ n + 1 := by simpa using hm
          simp [List.length_append] at h2
          have h4 : t.length ≠ 0 := by
            intro hz
            exact htne (List.eq_nil_of_length_eq_zero hz)
          omega
        have hIH := ih m2 hlen2 hA2 hB2
        have htok2 : ws_tokens (a :: rest) = t :: ws_tokens m2 := by
          rw [htok, hr, ws_tokens_cons_space d r2 hd, hM2, ws_tokens_dropWhile]
        have htokne : ws_tokens m2 ≠ [] := by
          have := token_step m2 hm2ne hA2
          rw [this]
          simp
        -- collapse side
        have hcol : collapse_ws (a :: rest) = t ++ ' ' :: collapse_ws m2 := by
          rw [collapse_ws]
          conv_lhs => rw [hsplit, hr]
          rw [collapse_go_nonspace _ _ ht, collapse_go, hd]
          rw [if_pos rfl, collapse_go_true_drop, ← hM2, collapse_ws]
          simp
        rw [hcol, htok2, intercalate_cons_of_ne _ _ _ htokne, hIH]
        simp

/-- The normalisation performed by `compute_body_hash` depends only on the
whitespace-separated chunk sequence of the body. -/
theorem normalize_ws_eq_tokens (x : String) :
    collapse_ws (pyStripL x.toList) = List.intercalate [' '] (ws_tokens x.toList) := by
  have hA : ∀ c, (pyStripL x.toList).head? = some c → pyIsSpace c = false := by
    intro c hc
    rw [pyStripL] at hc
    rcases hs : ((x.toList.dropWhile pyIsSpace).reverse.dropWhile pyIsSpace).reverse
      with _ | ⟨a, s2⟩
    · rw [hs] at hc; simp at hc
    · rw [hs] at hc
      simp only [List.head?_cons, Option.some.injEq] at hc
      subst hc
      -- the stripped list is a prefix of dropWhile, whose head is non-space
      have hpre : (x.toList.dropWhile pyIsSpace).reverse.dropWhile pyIsSpace
          = (a :: s2).reverse := by rw [← hs]; simp
      have hdecomp : x.toList.dropWhile pyIsSpace = a :: s2
          ++ ((x.toList.dropWhile pyIsSpace).reverse.takeWhile pyIsSpace).reverse := by
        conv_lhs => rw [← List.reverse_reverse (x.toList.dropWhile pyIsSpace),
          ← List.takeWhile_append_dropWhile (p := pyIsSpace)
            (l := (x.toList.dropWhile pyIsSpace).reverse)]
        rw [List.reverse_append, hpre]
        simp
      exact dropWhile_head_false pyIsSpace x.toList a _ hdecomp
  have hB : ∀ c, (pyStripL x.toList).getLast? = some c → pyIsSpace c = false := by
    intro c hc
    rw [pyStripL, List.getLast?_reverse] at hc
    rcases hs : (x.toList.dropWhile pyIsSpace).reverse.dropWhile pyIsSpace with _ | ⟨a, s2⟩
    · rw [hs] at hc; simp at hc
    · rw [hs] at hc
      simp only [List.head?_cons, Option.some.injEq] at hc
      subst hc
      exact dropWhile_head_false pyIsSpace _ a s2 hs
  calc collapse_ws (pyStripL x.toList)
      = List.intercalate [' '] (ws_tokens (pyStripL x.toList)) :=
        collapse_eq_tokens_aux (pyStripL x.toList).length _ le_rfl hA hB
    _ = List.intercalate [' '] (ws_tokens x.toList) := by rw [ws_tokens_strip]

/-- C6: `compute_body_hash` is invariant under changes that only reshape
whitespace runs (same whitespace-separated chunk sequence): the hash is
taken of the body after collapsing all whitespace runs to single spaces
and stripping the ends, so equal chunk sequences give equal input to the
digest. -/
theorem c6_body_hash_ws_invariant (digest : String → String) (b1 b2 : String)
    (h : ws_tokens b1.toList = ws_tokens b2.toList) :
    compute_body_hash digest b1 = compute_body_hash digest b2 := by
  rw [compute_body_hash, compute_body_hash]
  congr 1
  rw [normalize_ws, normalize_ws, collapse_ws, collapse_ws]
  have h1 := normalize_ws_eq_tokens b1
  have h2 := normalize_ws_eq_tokens b2
  rw [collapse_ws] at h1 h2
  rw [h1, h2, h]

/-- Witness for C6: two bodies differing only in whitespace runs. -/
theorem c6_body_hash_ws_invariant_witness :
    ws_tokens ("return a +  b\n" : String).toList
      = ws_tokens (" return  a + b" : String).toList ∧
    compute_body_hash (fun s => s ++ "#") "return a +  b\n"
      = compute_body_hash (fun s => s ++ "#") " return  a + b" :=
  ⟨by decide, c6_body_hash_ws_invariant (fun s => s ++ "#") _ _ (by decide)⟩

/-! ## Claim C2 -/

theorem filterMap_old_of_added (ns : List Symbol) :
    (ns.map (fun n => (⟨none, some n, none, none⟩ : MatchedSymbol))).filterMap
      (fun m => m.old) = [] := by
  induction ns with
  | nil => rfl
  | cons n t ih => simpa [List.filterMap_cons] using ih

theorem filterMap_new_of_added (ns : List Symbol) :
    (ns.map (fun n => (⟨none, some n, none, none⟩ : MatchedSymbol))).filterMap
      (fun m => m.new) = ns := by
  induction ns with
  | nil => rfl
  | cons n t ih => simpa [List.filterMap_cons] using ih

theorem filterMap_old_of_removed (os : List Symbol) :
    (os.map (fun o => (⟨some o, none, none, none⟩ : MatchedSymbol))).filterMap
      (fun m => m.old) = os := by
  induction os with
  | nil => rfl
  | cons o t ih => simpa [List.filterMap_cons] using ih

theorem filterMap_new_of_removed (os : List Symbol) :
    (os.map (fun o => (⟨some o, none, none, none⟩ : MatchedSymbol))).filterMap
      (fun m => m.new) = [] := by
  induction os with
  | nil => rfl
  | cons o t ih => simpa [List.filterMap_cons] using ih

theorem pass2_count (a b : List Symbol) (s : Symbol) :
    ((pass2 a b).filterMap (fun m => m.old)).count s = a.count s ∧
    ((pass2 a b).filterMap (fun m => m.new)).count s = b.count s := by
  induction a generalizing b with
  | nil =>
    cases b with
    | nil => simp [pass2]
    | cons n ns =>
      have hp : pass2 [] (n :: ns) = (n :: ns).map (fun q => ⟨none, some q, none, none⟩) := rfl
      rw [hp, filterMap_old_of_added, filterMap_new_of_added]
      simp
  | cons o os ih =>
    cases b with
    | nil =>
      have hp : pass2 (o :: os) [] = (o :: os).map (fun q => ⟨some q, none, none, none⟩) := rfl
      rw [hp, filterMap_old_of_removed, filterMap_new_of_removed]
      simp
    | cons n ns =>
      have h := ih ns
      simp only [pass2, List.filterMap_cons, List.count_cons]
      constructor
      · rw [h.1]
      · rw [h.2]

theorem pass1_count (snap : List Symbol) : ∀ (remOld remNew : List Symbol),
    (∀ v : Symbol, snap.count v ≤ remOld.count v) → ∀ s : Symbol,
    ((pass1 snap remOld remNew).1.filterMap (fun m => m.old)).count s
        + (pass1 snap remOld remNew).2.1.count s = remOld.count s ∧
    ((pass1 snap remOld remNew).1.filterMap (fun m => m.new)).count s
        + (pass1 snap remOld remNew).2.2.count s = remNew.count s := by
  induction snap with
  | nil => intro remOld remNew _ s; simp [pass1]
  | cons o snap ih =>
    intro remOld remNew hsub s
    rcases hf : remNew.find? (fun n => o.signature == n.signature) with _ | n
    · have hsub2 : ∀ v : Symbol, snap.count v ≤ remOld.count v := by
        intro v
        have h1 := hsub v
        rw [List.count_cons] at h1
        omega
      simp only [pass1, hf]
      exact ih remOld remNew hsub2 s
    · have hn_mem : n ∈ remNew := List.mem_of_find?_eq_some hf
      have ho_mem : o ∈ remOld := by
        have h1 := hsub o
        rw [List.count_cons] at h1
        simp only [beq_self_eq_true, if_true] at h1
        exact List.count_pos_iff_mem.mp (by omega)
      have hsub2 : ∀ v : Symbol, snap.count v ≤ (remOld.erase o).count v := by
        intro v
        have h1 := hsub v
        rw [List.count_cons] at h1
        rw [List.count_erase]
        by_cases hvo : v = o
        · subst hvo
          simp only [beq_self_eq_true, if_true] at h1 ⊢
          omega
        · rw [if_neg (by simp [Ne.symm hvo])] at h1 ⊢
          omega
      have hrec := ih (remOld.erase o) (remNew.erase n) hsub2 s
      have hco : (remOld.erase o).count s = remOld.count s - if (o == s) = true then 1 else 0 :=
        List.count_erase s o remOld
      have hcn : (remNew.erase n).count s = remNew.count s - if (n == s) = true then 1 else 0 :=
        List.count_erase s n remNew
      simp only [pass1, hf, List.filterMap_cons]
      constructor
      · rw [List.count_cons]
        have h2 := hrec.1
        by_cases hos : s = o
        · subst hos
          have h4 : 0 < remOld.count s := List.count_pos_iff_mem.mpr ho_mem
          simp only [beq_self_eq_true, if_true] at hco ⊢
          omega
        · rw [if_neg (by simp [Ne.symm hos])] at hco ⊢
          omega
      · rw [List.count_cons]
        have h2 := hrec.2
        by_cases hns : s = n
        · subst hns
          have h4 : 0 < remNew.count s := List.count_pos_iff_mem.mpr hn_mem
          simp only [beq_self_eq_true, if_true] at hcn ⊢
          omega
        · rw [if_neg (by simp [Ne.symm hns])] at hcn ⊢
          omega

theorem match_duplicates_count (olds news : List Symbol) (s : Symbol) :
    ((match_duplicates olds news).filterMap (fun m => m.old)).count s = olds.count s ∧
    ((match_duplicates olds news).filterMap (fun m => m.new)).count s = news.count s := by
  have h1 := pass1_count olds olds news (fun v => le_refl _) s
  have h2 := pass2_count (pass1 olds olds news).2.1 (pass1 olds olds news).2.2 s
  simp only [match_duplicates]
  constructor
  · rw [List.filterMap_append, List.count_append, h2.1]
    exact h1.1
  · rw [List.filterMap_append, List.count_append, h2.2]
    exact h1.2

theorem process_key_count (olds news : List Symbol) (s : Symbol) :
    ((process_key olds news).filterMap (fun m => m.old)).count s = olds.count s ∧
    ((process_key olds news).filterMap (fun m => m.new)).count s = news.count s := by
  rw [process_key]
  by_cases hdup : (decide (1 < olds.length) || decide (1 < news.length)) = true
  · rw [if_pos hdup]
    exact match_duplicates_count olds news s
  · rw [if_neg hdup]
    simp only [Bool.or_eq_true, decide_eq_true_eq, not_or] at hdup
    rcases olds with _ | ⟨o, ot⟩
    · rcases news with _ | ⟨n, nt⟩
      · have hp : process_key_single ([] : List Symbol) [] = [] := rfl
        rw [hp]
        simp
      · have hp : process_key_single [] (n :: nt) =
            (n :: nt).map (fun q => ⟨none, some q, none, none⟩) := rfl
        rw [hp, filterMap_old_of_added, filterMap_new_of_added]
        simp
    · rcases news with _ | ⟨n, nt⟩
      · have hp : process_key_single (o :: ot) [] =
            (o :: ot).map (fun q => ⟨some q, none, none, none⟩) := rfl
        rw [hp, filterMap_old_of_removed, filterMap_new_of_removed]
        simp
      · have hot : ot = [] := by
          cases ot with
          | nil => rfl
          | cons c t =>
            exfalso
            apply hdup.1
            simp [List.length_cons]
        have hnt : nt = [] := by
          cases nt with
          | nil => rfl
          | cons c t =>
            exfalso
            apply hdup.2
            simp [List.length_cons]
        subst hot
        subst hnt
        have hp : process_key_single [o] [n] = [⟨some o, some n, none, none⟩] := rfl
        rw [hp]
        simp [List.filterMap_cons]

theorem index_get_count (symbols : List Symbol) (k : SymbolKey) (s : Symbol) :
    (index_get symbols k).count s = if symbol_key s = k then symbols.count s else 0 := by
  induction symbols with
  | nil => simp [index_get]
  | cons x xs ih =>
    rw [index_get, List.filter_cons]
    rw [index_get] at ih
    by_cases hsk : symbol_key s = k
    · rw [if_pos hsk]
      rw [if_pos hsk] at ih
      by_cases hx : (symbol_key x == k) = true
      · rw [if_pos hx, List.count_cons, List.count_cons, ih]
      · rw [if_neg hx, ih, List.count_cons]
        have hxs : (x == s) = false := by
          rw [beq_eq_false_iff_ne]
          intro hxe
          subst hxe
          exact hx (beq_iff_eq.mpr hsk)
        rw [hxs]
        simp
    · rw [if_neg hsk]
      rw [if_neg hsk] at ih
      by_cases hx : (symbol_key x == k) = true
      · rw [if_pos hx, List.count_cons, ih]
        have hxs : (x == s) = false := by
          rw [beq_eq_false_iff_ne]
          intro hxe
          subst hxe
          exact hsk (beq_iff_eq.mp hx)
        rw [hxs]
        simp
      · rw [if_neg hx, ih]

theorem dedup_keys_fold_spec (ks : List SymbolKey) : ∀ (acc : List SymbolKey), acc.Nodup →
    (ks.foldl (fun acc k => if acc.contains k then acc else acc ++ [k]) acc).Nodup ∧
    (∀ x, x ∈ ks.foldl (fun acc k => if acc.contains k then acc else acc ++ [k]) acc ↔
      x ∈ acc ∨ x ∈ ks) := by
  induction ks with
  | nil =>
    intro acc hacc
    exact ⟨hacc, by simp⟩
  | cons k t ih =>
    intro acc hacc
    rw [List.foldl_cons]
    by_cases hc : acc.contains k = true
    · rw [if_pos hc]
      have hk : k ∈ acc := by
        rw [List.contains] at hc
        exact List.elem_iff.mp hc
      obtain ⟨hn, hm⟩ := ih acc hacc
      refine ⟨hn, fun x => ?_⟩
      rw [hm x]
      constructor
      · rintro (h | h)
        · exact Or.inl h
        · exact Or.inr (by simp [h])
      · rintro (h | h)
        · exact Or.inl h
        · rcases List.mem_cons.mp h with rfl | h2
          · exact Or.inl hk
          · exact Or.inr h2
    · rw [if_neg hc]
      have hk : k ∉ acc := by
        intro hmem
        exact hc (by rw [List.contains]; exact List.elem_iff.mpr hmem)
      have hacc2 : (acc ++ [k]).Nodup := by
        rw [List.nodup_append]
        refine ⟨hacc, by simp, ?_⟩
        intro a ha hb
        simp at hb
        subst hb
        exact hk ha
      obtain ⟨hn, hm⟩ := ih (acc ++ [k]) hacc2
      refine ⟨hn, fun x => ?_⟩
      rw [hm x]
      simp only [List.mem_append, List.mem_singleton, List.mem_cons]
      tauto

theorem dedup_keys_nodup (ks : List SymbolKey) : (dedup_keys ks).Nodup :=
  (dedup_keys_fold_spec ks [] List.nodup_nil).1

theorem dedup_keys_mem (ks : List SymbolKey) (x : SymbolKey) : x ∈ dedup_keys ks ↔ x ∈ ks := by
  have h := (dedup_keys_fold_spec ks [] List.nodup_nil).2 x
  rw [dedup_keys, h]
  simp

theorem all_match_keys_nodup (o n : List Symbol) : (all_match_keys o n).Nodup :=
  dedup_keys_nodup _

theorem all_match_keys_mem (o n : List Symbol) (x : SymbolKey) :
    x ∈ all_match_keys o n ↔ x ∈ o.map symbol_key ∨ x ∈ n.map symbol_key := by
  rw [all_match_keys, dedup_keys_mem, List.mem_append, dedup_keys_mem, dedup_keys_mem]

theorem flatMap_filterMap_count (ks : List SymbolKey) (f : SymbolKey → List MatchedSymbol)
    (g : MatchedSymbol → Option Symbol) (s : Symbol) :
    ((ks.flatMap f).filterMap g).count s = (ks.map (fun k => ((f k).filterMap g).count s)).sum := by
  induction ks with
  | nil => simp
  | cons k t ih =>
    rw [List.flatMap_cons, List.filterMap_append, List.count_append, List.map_cons,
      List.sum_cons, ih]

theorem sum_if_key_of_mem (ks : List SymbolKey) (key : SymbolKey) (C : Nat)
    (hnd : ks.Nodup) (hmem : key ∈ ks) :
    (ks.map (fun k => if key = k then C else 0)).sum = C := by
  induction ks with
  | nil => simp at hmem
  | cons k t ih =>
    rw [List.map_cons, List.sum_cons]
    rcases List.mem_cons.mp hmem with rfl | hm
    · rw [if_pos rfl]
      have hnotin : key ∉ t := (List.nodup_cons.mp hnd).1
      have hz : (t.map (fun q => if key = q then C else 0)).sum = 0 := by
        apply List.sum_eq_zero
        intro x hx
        obtain ⟨q, hq, rfl⟩ := List.mem_map.mp hx
        rw [if_neg]
        intro hkeq
        exact hnotin (hkeq ▸ hq)
      rw [hz]
      simp
    · have hk : ¬ key = k := by
        rintro rfl
        exact (List.nodup_cons.mp hnd).1 hm
      rw [if_neg hk, ih (List.nodup_cons.mp hnd).2 hm]
      simp

theorem match_symbols_count (old_symbols new_symbols : List Symbol) (s : Symbol) :
    ((match_symbols old_symbols new_symbols).filterMap (fun m => m.old)).count s
      = old_symbols.count s ∧
    ((match_symbols old_symbols new_symbols).filterMap (fun m => m.new)).count s
      = new_symbols.count s := by
  rw [match_symbols]
  rw [flatMap_filterMap_count, flatMap_filterMap_count]
  have hmapo : ∀ k ∈ all_match_keys old_symbols new_symbols,
      ((process_key (index_get old_symbols k) (index_get new_symbols k)).filterMap
        (fun m => m.old)).count s = if symbol_key s = k then old_symbols.count s else 0 := by
    intro k _
    rw [(process_key_count _ _ s).1, index_get_count]
  have hmapn : ∀ k ∈ all_match_keys old_symbols new_symbols,
      ((process_key (index_get old_symbols k) (index_get new_symbols k)).filterMap
        (fun m => m.new)).count s = if symbol_key s = k then new_symbols.count s else 0 := by
    intro k _
    rw [(process_key_count _ _ s).2, index_get_count]
  rw [List.map_congr_left hmapo, List.map_congr_left hmapn]
  constructor
  · by_cases ho : old_symbols.count s = 0
    · rw [ho]
      apply List.sum_eq_zero
      intro x hx
      obtain ⟨q, hq, rfl⟩ := List.mem_map.mp hx
      simp
    · have hmem : s ∈ old_symbols := List.count_pos_iff_mem.mp (Nat.pos_of_ne_zero ho)
      have hkmem : symbol_key s ∈ all_match_keys old_symbols new_symbols := by
        rw [all_match_keys_mem]
        exact Or.inl (List.mem_map_of_mem _ hmem)
      exact sum_if_key_of_mem _ _ _ (all_match_keys_nodup _ _) hkmem
  · by_cases hn : new_symbols.count s = 0
    · rw [hn]
      apply List.sum_eq_zero
      intro x hx
      obtain ⟨q, hq, rfl⟩ := List.mem_map.mp hx
      simp
    · have hmem : s ∈ new_symbols := List.count_pos_iff_mem.mp (Nat.pos_of_ne_zero hn)
      have hkmem : symbol_key s ∈ all_match_keys old_symbols new_symbols := by
        rw [all_match_keys_mem]
        exact Or.inr (List.mem_map_of_mem _ hmem)
      exact sum_if_key_of_mem _ _ _ (all_match_keys_nodup _ _) hkmem

/-- C2: `match_symbols` covers every input symbol exactly once — for every
symbol value, the old sides of the returned `MatchedSymbol`s contain it
exactly as often as the old input list does, and likewise for the new
sides, so no symbol is duplicated or dropped even when several symbols
share a `(name, kind, parent)` key. -/
theorem c2_match_symbols_partition (old_symbols new_symbols : List Symbol) (s : Symbol) :
    ((match_symbols old_symbols new_symbols).filterMap (fun m => m.old)).count s
      = old_symbols.count s ∧
    ((match_symbols old_symbols new_symbols).filterMap (fun m => m.new)).count s
      = new_symbols.count s :=
  match_symbols_count old_symbols new_symbols s

/-! ## Claim C8 -/

theorem pass1_nil_new (snap : List Symbol) : ∀ remOld : List Symbol,
    pass1 snap remOld [] = ([], remOld, []) := by
  induction snap with
  | nil => intro remOld; rfl
  | cons o t ih =>
    intro remOld
    simp only [pass1, List.find?_nil]
    exact ih remOld

theorem process_key_nil_old (g : List Symbol) :
    process_key [] g = g.map (fun n => ⟨none, some n, none, none⟩) := by
  rw [process_key]
  by_cases hdup : (decide (1 < ([] : List Symbol).length) || decide (1 < g.length)) = true
  · rw [if_pos hdup]
    cases g with
    | nil => rfl
    | cons n ns => rfl
  · rw [if_neg hdup]
    cases g with
    | nil => rfl
    | cons n ns => rfl

theorem process_key_nil_new (g : List Symbol) :
    process_key g [] = g.map (fun o => ⟨some o, none, none, none⟩) := by
  rw [process_key]
  by_cases hdup : (decide (1 < g.length) || decide (1 < ([] : List Symbol).length)) = true
  · rw [if_pos hdup]
    simp only [match_duplicates, pass1_nil_new]
    cases g with
    | nil => rfl
    | cons o os => rfl
  · rw [if_neg hdup]
    cases g with
    | nil => rfl
    | cons o os => rfl

theorem match_symbols_nil_old (syms : List Symbol) :
    match_symbols [] syms =
      ((all_match_keys [] syms).flatMap (fun k => index_get syms k)).map
        (fun n => ⟨none, some n, none, none⟩) := by
  have hf : (fun k => process_key (index_get [] k) (index_get syms k)) =
      (fun k => (index_get syms k).map
        (fun n => (⟨none, some n, none, none⟩ : MatchedSymbol))) := by
    funext k
    rw [show index_get [] k = [] from rfl, process_key_nil_old]
  rw [match_symbols, hf, ← List.map_flatMap]

theorem match_symbols_nil_new (syms : List Symbol) :
    match_symbols syms [] =
      ((all_match_keys syms []).flatMap (fun k => index_get syms k)).map
        (fun o => ⟨some o, none, none, none⟩) := by
  have hf : (fun k => process_key (index_get syms k) (index_get [] k)) =
      (fun k => (index_get syms k).map
        (fun o => (⟨some o, none, none, none⟩ : MatchedSymbol))) := by
    funext k
    rw [show index_get [] k = [] from rfl, process_key_nil_new]
  rw [match_symbols, hf, ← List.map_flatMap]

theorem classify_changes_map_added (ns : List Symbol) :
    classify_changes (ns.map (fun n => ⟨none, some n, none, none⟩)) = ns.map added_change := by
  induction ns with
  | nil => rfl
  | cons n t ih =>
    simp only [List.map_cons, classify_changes, List.filterMap_cons] at ih ⊢
    rw [show classify_one ⟨none, some n, none, none⟩ = some (added_change n) from rfl, ih]

theorem classify_changes_map_removed (os : List Symbol) :
    classify_changes (os.map (fun o => ⟨some o, none, none, none⟩)) = os.map removed_change := by
  induction os with
  | nil => rfl
  | cons o t ih =>
    simp only [List.map_cons, classify_changes, List.filterMap_cons] at ih ⊢
    rw [show classify_one ⟨some o, none, none, none⟩ = some (removed_change o) from rfl, ih]

/-- C8: in the per-file pipeline step, a side whose path is absent or
whose content lookup returns nothing contributes an empty symbol list (no
error), so every symbol of the other side is classified as a pure added
change (old side missing) or a pure removed change (new side missing). -/
theorem c8_missing_side (parse_fn : String → String → ParseResult) (fd : FileDiff)
    (ref_range : String) (gc : String → String → Option String) (lang : String)
    (hg : fd.generated = false) (hb : fd.binary = false)
    (hl : detect_language (fd_path fd) = some lang) :
    (∀ src, side_source gc (old_ref_of ref_range) fd.old_path = none →
      side_source gc (new_ref_of ref_range) fd.new_path = some src →
      ((process_file parse_fn fd ref_range (some gc)).1.changes).Perm
        ((parse_fn src lang).symbols.map added_change)) ∧
    (∀ src, side_source gc (new_ref_of ref_range) fd.new_path = none →
      side_source gc (old_ref_of ref_range) fd.old_path = some src →
      ((process_file parse_fn fd ref_range (some gc)).1.changes).Perm
        ((parse_fn src lang).symbols.map removed_change)) := by
  constructor
  · intro src hold hnew
    rw [process_file, if_neg (by simp [hg]), if_neg (by simp [hb]), hl]
    dsimp only
    rw [hold, hnew]
    dsimp only
    rw [match_symbols_nil_old, classify_changes_map_added]
    apply List.Perm.map
    rw [List.perm_iff_count]
    intro v
    have h1 := (match_symbols_count [] (parse_fn src lang).symbols v).2
    rw [match_symbols_nil_old, filterMap_new_of_added] at h1
    exact h1
  · intro src hnew hold
    rw [process_file, if_neg (by simp [hg]), if_neg (by simp [hb]), hl]
    dsimp only
    rw [hold, hnew]
    dsimp only
    rw [match_symbols_nil_new, classify_changes_map_removed]
    apply List.Perm.map
    rw [List.perm_iff_count]
    intro v
    have h1 := (match_symbols_count (parse_fn src lang).symbols [] v).1
    rw [match_symbols_nil_new, filterMap_old_of_removed] at h1
    exact h1

/-- Witness for C8 at a concrete newly-added file. -/
theorem c8_missing_side_witness :
    side_source (fun ref path => if ref == "r2" && path == "b.py"
        then some "def f(): pass" else none)
      (old_ref_of "r1..r2") (none : Option String) = none ∧
    side_source (fun ref path => if ref == "r2" && path == "b.py"
        then some "def f(): pass" else none)
      (new_ref_of "r1..r2") (some "b.py") = some "def f(): pass" ∧
    ((process_file
        (fun _ lang => ⟨[⟨"f", "function", "def f()", 1, 1, "h", none⟩], lang, false, none⟩)
        ⟨none, some "b.py", "added", false, false, []⟩ "r1..r2"
        (some (fun ref path => if ref == "r2" && path == "b.py"
          then some "def f(): pass" else none))).1.changes).Perm
      ([⟨"f", "function", "def f()", 1, 1, "h", none⟩].map added_change) :=
  ⟨by decide, by decide,
   (c8_missing_side
      (fun _ lang => ⟨[⟨"f", "function", "def f()", 1, 1, "h", none⟩], lang, false, none⟩)
      ⟨none, some "b.py", "added", false, false, []⟩ "r1..r2"
      (fun ref path => if ref == "r2" && path == "b.py" then some "def f(): pass" else none)
      "python" rfl rfl (by decide)).1 "def f(): pass" (by decide) (by decide)⟩

/-! ## Claim C9 -/

/-- C9: a symbol removed from file A and added, identically signed and
under the same key, in file B (matching nothing in its own file, both
paths nonempty as the move-paths truthiness filter requires) yields
exactly one change in the patched output: a `moved` record with
`file_from = A` attached to B's record, with the stale added/removed
entries for that name deleted from both A's and B's records. -/
theorem c9_cross_file_move (A B : String) (so sn : Symbol) (restA restB : List SymbolChange)
    (fcA fcB : FileChange) (cr ca : SymbolChange)
    (hAB : A ≠ B) (hAne : A ≠ "") (hBne : B ≠ "")
    (hpA : fcA.path = A) (hpB : fcB.path = B)
    (hkey : symbol_key so = symbol_key sn)
    (hsig : so.signature = sn.signature)
    (hcr : cr.name = so.name) (hcrk : is_add_remove_kind cr.kind = true)
    (hca : ca.name = sn.name) (hcak : is_add_remove_kind ca.kind = true)
    (hA : fcA.changes = restA ++ [cr]) (hB : fcB.changes = restB ++ [ca])
    (hrA : ∀ c ∈ restA, c.name ≠ sn.name) (hrB : ∀ c ∈ restB, c.name ≠ sn.name) :
    apply_moves (match_cross_file [(A, [so])] [(B, [sn])]) [fcA, fcB] =
      [{ fcA with changes := restA },
       { fcB with changes := restB ++ [moved_change A sn] }] ∧
    ((apply_moves (match_cross_file [(A, [so])] [(B, [sn])]) [fcA, fcB]).flatMap
        (fun fc => fc.changes)).filter (fun c => c.name == sn.name) =
      [moved_change A sn] := by
  have hname : so.name = sn.name := by
    have := congrArg Prod.fst hkey
    simpa [symbol_key] using this
  -- the cross-file matcher pairs the two symbols
  have hstep : cross_file_step A so [(B, 0, sn)] [] = some (B, 0, sn) := by
    rw [cross_file_step]
    rw [show ([(B, 0, sn)] : List (String × Nat × Symbol)).filter
        (fun fns => symbol_key fns.2.2 == symbol_key so) = [(B, 0, sn)] from by
      simp [hkey]]
    apply List.find?_cons_of_pos
    simp [hsig, bne_iff_ne, Ne.symm hAB]
  have hmoves : match_cross_file [(A, [so])] [(B, [sn])] =
      [⟨some so, some sn, some A, some B⟩] := by
    rw [match_cross_file]
    rw [show ([(A, [so])] : List (String × List Symbol)).flatMap
        (fun fs => fs.2.map (fun s => (fs.1, s))) = [(A, so)] from rfl]
    rw [show flatten_new [(B, [sn])] = [(B, 0, sn)] from rfl]
    simp only [cross_go, hstep]
  have hclass : classify_changes [(⟨some so, some sn, some A, some B⟩ : MatchedSymbol)] =
      [moved_change A sn] := rfl
  have hmp : move_paths_find [(⟨some so, some sn, some A, some B⟩ : MatchedSymbol)] sn.name
      = some (A, B) := by
    rw [move_paths_find]
    simp [hname, bne_iff_ne, hAne, hBne]
  have hBA : (fcB.path == A) = false := by
    rw [hpB, beq_eq_false_iff_ne]
    exact Ne.symm hAB
  have hAA : (fcA.path == A) = true := by rw [hpA]; exact beq_self_eq_true A
  have hBB : (fcB.path == B) = true := by rw [hpB]; exact beq_self_eq_true B
  have hABfalse : ((strip_stale sn.name fcA).path == B) = false := by
    rw [strip_stale]
    simpa [hpA, beq_eq_false_iff_ne] using hAB
  have hfA : (restA ++ [cr]).filter
      (fun c => !(c.name == sn.name && is_add_remove_kind c.kind)) = restA := by
    rw [List.filter_append]
    have h1 : restA.filter (fun c => !(c.name == sn.name && is_add_remove_kind c.kind))
        = restA := by
      apply List.filter_eq_self.mpr
      intro c hc
      simp [beq_eq_false_iff_ne.mpr (hrA c hc)]
    have h2 : ([cr] : List SymbolChange).filter
        (fun c => !(c.name == sn.name && is_add_remove_kind c.kind)) = [] := by
      simp [List.filter_cons, hcr, hname, hcrk]
    rw [h1, h2, List.append_nil]
  have hfB : (restB ++ [ca]).filter
      (fun c => !(c.name == sn.name && is_add_remove_kind c.kind)) = restB := by
    rw [List.filter_append]
    have h1 : restB.filter (fun c => !(c.name == sn.name && is_add_remove_kind c.kind))
        = restB := by
      apply List.filter_eq_self.mpr
      intro c hc
      simp [beq_eq_false_iff_ne.mpr (hrB c hc)]
    have h2 : ([ca] : List SymbolChange).filter
        (fun c => !(c.name == sn.name && is_add_remove_kind c.kind)) = [] := by
      simp [List.filter_cons, hca, hcak]
    rw [h1, h2, List.append_nil]
  have hsA : strip_stale sn.name fcA = { fcA with changes := restA } := by
    rw [strip_stale, hA, hfA]
  have hsB : strip_stale sn.name fcB = { fcB with changes := restB } := by
    rw [strip_stale, hB, hfB]
  have hu1 : update_last_fc [fcA, fcB] A (strip_stale sn.name)
      = [{ fcA with changes := restA }, fcB] := by
    rw [update_last_fc]
    rw [show ([fcA, fcB] : List FileChange).reverse = [fcB, fcA] from by simp]
    rw [update_first_fc, if_neg (by rw [hBA]; exact Bool.false_ne_true)]
    rw [update_first_fc, if_pos hAA, hsA]
    simp
  have hu2 : update_last_fc [{ fcA with changes := restA }, fcB] B (strip_stale sn.name)
      = [{ fcA with changes := restA }, { fcB with changes := restB }] := by
    rw [update_last_fc]
    rw [show ([{ fcA with changes := restA }, fcB] : List FileChange).reverse
        = [fcB, { fcA with changes := restA }] from by simp]
    rw [update_first_fc, if_pos hBB, hsB]
    simp
  have hu3 : update_last_fc [{ fcA with changes := restA }, { fcB with changes := restB }] B
      (fun fc => { fc with changes := fc.changes ++ [moved_change A sn] })
      = [{ fcA with changes := restA },
         { fcB with changes := restB ++ [moved_change A sn] }] := by
    rw [update_last_fc]
    rw [show ([{ fcA with changes := restA }, { fcB with changes := restB }] :
        List FileChange).reverse
        = [{ fcB with changes := restB }, { fcA with changes := restA }] from by simp]
    rw [update_first_fc, if_pos (by simpa using hBB)]
    simp
  have hmain : apply_moves (match_cross_file [(A, [so])] [(B, [sn])]) [fcA, fcB] =
      [{ fcA with changes := restA },
       { fcB with changes := restB ++ [moved_change A sn] }] := by
    rw [apply_moves, hmoves, hclass]
    rw [List.foldl_cons, List.foldl_nil]
    rw [apply_one_move, if_neg (by simp [moved_change])]
    simp only [show (moved_change A sn).name = sn.name from rfl]
    rw [hmp]
    dsimp only
    rw [hu1, hu2, hu3]
  refine ⟨hmain, ?_⟩
  rw [hmain]
  rw [show ([{ fcA with changes := restA },
      { fcB with changes := restB ++ [moved_change A sn] }] :
        List FileChange).flatMap (fun fc => fc.changes)
      = restA ++ (restB ++ [moved_change A sn]) from by simp]
  rw [List.filter_append, List.filter_append]
  have hzA : restA.filter (fun c => c.name == sn.name) = [] := by
    apply List.filter_eq_nil_iff.mpr
    intro c hc
    simp [beq_eq_false_iff_ne.mpr (hrA c hc)]
  have hzB : restB.filter (fun c => c.name == sn.name) = [] := by
    apply List.filter_eq_nil_iff.mpr
    intro c hc
    simp [beq_eq_false_iff_ne.mpr (hrB c hc)]
  rw [hzA, hzB]
  simp [moved_change]

/-- Witness for C9 at a concrete two-file move. -/
theorem c9_cross_file_move_witness :
    apply_moves
        (match_cross_file [("a.py", [⟨"helper", "function", "def helper(a)", 1, 2, "hh", none⟩])]
          [("b.py", [⟨"helper", "function", "def helper(a)", 9, 10, "hh", none⟩])])
        [⟨"a.py", none, "modified", false, false, false, false,
           [⟨.function_removed, "helper", some "def helper(a)", none, none, none, some 1, false⟩]⟩,
         ⟨"b.py", none, "modified", false, false, false, false,
           [⟨.function_added, "helper", some "def helper(a)", none, none, none, some 9, false⟩]⟩] =
      [⟨"a.py", none, "modified", false, false, false, false, []⟩,
       ⟨"b.py", none, "modified", false, false, false, false,
         [moved_change "a.py" ⟨"helper", "function", "def helper(a)", 9, 10, "hh", none⟩]⟩] := by
  have h := (c9_cross_file_move "a.py" "b.py"
    ⟨"helper", "function", "def helper(a)", 1, 2, "hh", none⟩
    ⟨"helper", "function", "def helper(a)", 9, 10, "hh", none⟩
    [] []
    ⟨"a.py", none, "modified", false, false, false, false,
      [⟨.function_removed, "helper", some "def helper(a)", none, none, none, some 1, false⟩]⟩
    ⟨"b.py", none, "modified", false, false, false, false,
      [⟨.function_added, "helper", some "def helper(a)", none, none, none, some 9, false⟩]⟩
    ⟨.function_removed, "helper", some "def helper(a)", none, none, none, some 1, false⟩
    ⟨.function_added, "helper", some "def helper(a)", none, none, none, some 9, false⟩
    (by decide) (by decide) (by decide) (by decide) (by decide) (by decide) (by decide)
    (by decide) (by decide) (by decide) (by decide) (by decide) (by decide)
    (fun c hc => by simp at hc) (fun c hc => by simp at hc)).1
  simpa using h

/-! ### C5: the detailed-tier cap and the `(and N more)` trailer -/

/-- A list's length splits by a predicate. -/
theorem length_filter_split {α : Type} (p : α → Bool) (l : List α) :
    l.length = (l.filter p).length + (l.filter (fun x => !p x)).length := by
  induction l with
  | nil => rfl
  | cons x xs ih => by_cases hx : p x <;> simp [List.filter_cons, hx, ih] <;> omega

/-- The `emitted` counter returned by the capped emission loop is the
minimum of the cap and the starting counter plus the total number of
section items, provided the starting counter is within the cap. -/
theorem emit_loop_snd (l : List (String × List String)) (c : Nat) :
    ∀ e, e ≤ c →
      (emit_loop l (some c) e).2 = min c (e + (l.map (fun p => p.2.length)).sum) := by
  induction l with
  | nil =>
    intro e he
    simp only [emit_loop, List.map_nil, List.sum_nil, Nat.add_zero]
    omega
  | cons p rest ih =>
    intro e he
    obtain ⟨h, items⟩ := p
    by_cases hie : items.isEmpty
    · have h0 : items.length = 0 := by
        rcases items with _ | ⟨a, t⟩
        · rfl
        · simp at hie
      simp only [emit_loop, hie, if_true, List.map_cons, List.sum_cons, h0, Nat.zero_add]
      exact ih e he
    · by_cases hce : c ≤ e
      · have hec : e = c := Nat.le_antisymm he hce
        simp only [emit_loop, hie, Bool.false_eq_true, if_false, hce, if_true,
          List.map_cons, List.sum_cons]
        omega
      · simp only [emit_loop, hie, Bool.false_eq_true, if_false, hce,
          List.map_cons, List.sum_cons]
        rw [ih (e + (items.take (c - e)).length) (by rw [List.length_take]; omega)]
        rw [List.length_take]
        omega

/-- The five sections of `_emit_change_sections` together hold exactly the
non-breaking changes: one item per non-breaking pair, none for breaking
pairs. -/
theorem section_items_length_sum (l : List (String × SymbolChange)) :
    (section_items l 0).length + (section_items l 1).length + (section_items l 2).length
      + (section_items l 3).length + (section_items l 4).length
    = (l.filter (fun pc => !pc.2.breaking)).length := by
  induction l with
  | nil => rfl
  | cons pc rest ih =>
    by_cases hb : pc.2.breaking
    · simpa [section_items, List.filterMap_cons, List.filter_cons, hb] using ih
    · cases hk : pc.2.kind <;>
        · simp [section_items, List.filterMap_cons, List.filter_cons, hb, hk,
            section_index] at ih ⊢
          omega

/-- `_emit_change_sections` with the detailed cap emits
`min cap (number of non-breaking changes)` items. -/
theorem emit_snd_eq (l : List (String × SymbolChange)) :
    (emit_change_sections l (some detailed_cap)).2
      = min detailed_cap (l.filter (fun pc => !pc.2.breaking)).length := by
  unfold emit_change_sections
  rw [emit_loop_snd _ _ 0 (Nat.zero_le _)]
  have h := section_items_length_sum l
  simp only [section_pairs, List.map_cons, List.map_nil, List.sum_cons, List.sum_nil]
  omega

/-- C5 counterexample: with no production changes, a single breaking test
change, and that change shown in full in the Breaking Changes block, the
detailed tier still emits the trailer `(and 1 more)` even though the total
number of eligible non-breaking items is 0 — so the trailer's count does
not equal (total eligible non-breaking items − 15).  The leftover count of
the test section includes breaking test items. -/
theorem c5_counterexample :
    "(and 1 more)" ∈ build_detailed_lines []
        [⟨"tests/test_f.py", none, "modified", false, false, false, false,
          [⟨.signature_changed, "f", none, some "def f(a)", some "def f(a, b)", none,
            some 1, true⟩]⟩]
        []
        ⟨[], [⟨.signature_changed, "f", none, some "def f(a)", some "def f(a, b)", none,
          some 1, true⟩], []⟩ false
    ∧ ((all_changes_sorted []
        ++ all_changes_sorted
          [⟨"tests/test_f.py", none, "modified", false, false, false, false,
            [⟨.signature_changed, "f", none, some "def f(a)", some "def f(a, b)", none,
              some 1, true⟩]⟩]).filter
        (fun pc => !pc.2.breaking)).length = 0 := by decide

/-- C5 (amended): when there are no test-file changes, the detailed tier
emits `min 15 nb` items under the grouped headings where `nb` is the
number of eligible non-breaking production changes (so never more than
15, and breaking changes do not count against the cap); the breaking
changes are always listed in full (a sublist of the output); and the
`(and N more)` trailer appears exactly when `nb > 15`, with
`N = nb − 15`. -/
theorem c5_amended_detailed_cap (prod_files all_files : List FileChange)
    (summary : Summary) (show_skipped : Bool) :
    (emit_change_sections (all_changes_sorted prod_files) (some detailed_cap)).2
      = min detailed_cap
          ((all_changes_sorted prod_files).filter (fun pc => !pc.2.breaking)).length
    ∧ List.Sublist (summary.breaking_changes.map fmt_breaking)
        (build_detailed_lines prod_files [] all_files summary show_skipped)
    ∧ build_detailed_lines prod_files [] all_files summary show_skipped
      = breaking_section summary
        ++ (emit_change_sections (all_changes_sorted prod_files) (some detailed_cap)).1
        ++ (if detailed_cap <
              ((all_changes_sorted prod_files).filter (fun pc => !pc.2.breaking)).length
            then ["(and " ++ toString
                ((((all_changes_sorted prod_files).filter
                    (fun pc => !pc.2.breaking)).length : Int) - (detailed_cap : Int))
                ++ " more)", ""]
            else [])
        ++ skipped_section all_files show_skipped := by
  have hsnd := emit_snd_eq (all_changes_sorted prod_files)
  have hsplit := length_filter_split (fun pc => pc.2.breaking) (all_changes_sorted prod_files)
  have h3 : build_detailed_lines prod_files [] all_files summary show_skipped
      = breaking_section summary
        ++ (emit_change_sections (all_changes_sorted prod_files) (some detailed_cap)).1
        ++ (if detailed_cap <
              ((all_changes_sorted prod_files).filter (fun pc => !pc.2.breaking)).length
            then ["(and " ++ toString
                ((((all_changes_sorted prod_files).filter
                    (fun pc => !pc.2.breaking)).length : Int) - (detailed_cap : Int))
                ++ " more)", ""]
            else [])
        ++ skipped_section all_files show_skipped := by
    unfold build_detailed_lines
    simp only [show all_changes_sorted ([] : List FileChange) = [] from rfl,
      test_section, List.isEmpty_nil, if_true, Int.add_zero, List.append_nil]
    by_cases hle :
        ((all_changes_sorted prod_files).filter (fun pc => !pc.2.breaking)).length
          ≤ detailed_cap
    · rw [if_neg (by rw [hsnd]; omega), if_neg (by omega)]
    · rw [if_pos (by rw [hsnd]; omega), if_pos (by omega)]
      have harg :
          ((all_changes_sorted prod_files).length : Int)
            - ((emit_change_sections (all_changes_sorted prod_files)
                (some detailed_cap)).2 : Int)
            - (((all_changes_sorted prod_files).filter
                (fun pc => pc.2.breaking)).length : Int)
          = ((((all_changes_sorted prod_files).filter
                (fun pc => !pc.2.breaking)).length : Int) - (detailed_cap : Int)) := by
        rw [hsnd]; omega
      rw [harg]
  refine ⟨hsnd, ?_, h3⟩
  rw [h3]
  have hb1 : List.Sublist (summary.breaking_changes.map fmt_breaking)
      (breaking_section summary) := by
    unfold breaking_section
    by_cases hbe : summary.breaking_changes.isEmpty
    · rw [List.isEmpty_iff.mp hbe]
      simp
    · simp only [hbe, Bool.false_eq_true, if_false]
      exact List.Sublist.cons _ (List.sublist_append_left _ _)
  exact ((hb1.trans (List.sublist_append_left _ _)).trans
    (List.sublist_append_left _ _)).trans (List.sublist_append_left _ _)

end DiffGuard
